import Mathlib

/-!
Verification model of the PMIP (property-management-integration-platform)
core subsystems: the workflow engine (`src/workflows/WorkflowManager.ts`)
and the deduplication service (`src/services/deduplication/index.ts`).

Conventions of the shallow embedding:
* JS numbers used as counters/delays are modelled as `Nat`; timestamps as
  `Int`; confidence scores (floats in the source) as `ℚ` carrying the
  exact value the source's formula denotes.  The one float computation
  whose IEEE error value is reachable — the name-similarity score, which
  is NaN when both names are empty — returns `Option ℚ` with `none` for
  NaN.
* JS strings that are only compared/keyed are `String`; strings whose
  characters the code inspects (addresses, names, template tokens) are
  `List ℕ` of UTF-16 code units.
* Async methods returning a value or throwing are modelled as pure
  functions into `Except String _`; the outcome of each external call
  (integration dispatch, condition evaluation, matching strategy) is an
  explicit parameter, so theorems quantify over every possible behaviour
  of the collaborators.
-/

namespace PMIP

/-! ### Workflow engine data model (`src/workflows/WorkflowManager.ts`) -/

/-- JSON-like values: the parameter objects, step results and execution
context handled by `resolveParams`/`getValueByPath`.  `vUndefined` is JS
`undefined` (the result of a failed property access). -/
inductive JVal where
  | vNull
  | vUndefined
  | vBool (b : Bool)
  | vNum (n : Int)
  | vStr (s : List Nat)
  | vArr (xs : List JVal)
  | vObj (fields : List (List Nat × JVal))

/-- Backoff kinds of a `RetryPolicy` (`'exponential' | 'linear' | 'fixed'`). -/
inductive Backoff where
  | exponential
  | linear
  | fixed
deriving DecidableEq, Repr

/-- `RetryPolicy` from `src/types`: `maxDelay` is optional in the source
(`policy.maxDelay || 60000`). -/
structure RetryPolicy where
  maxAttempts : Nat
  backoff : Backoff
  initialDelay : Nat
  maxDelay : Option Nat
deriving DecidableEq, Repr

/-- `WorkflowManager.getDefaultRetryPolicy`. -/
def getDefaultRetryPolicy : RetryPolicy :=
  { maxAttempts := 3, backoff := .exponential, initialDelay := 1000,
    maxDelay := some 30000 }

/-- `WorkflowManager.calculateDelay(attempt, policy)`. -/
def calculateDelay (attempt : Nat) (policy : RetryPolicy) : Nat :=
  match policy.backoff with
  | .exponential => min (policy.initialDelay * 2 ^ attempt) (policy.maxDelay.getD 60000)
  | .linear => policy.initialDelay * (attempt + 1)
  | .fixed => policy.initialDelay

/-- A normalized `WorkflowStep` (after `normalizeSteps`): all fields
present. -/
structure WorkflowStep where
  action : String
  params : Option JVal
  condition : Option String
  timeout : Nat
  retries : Nat

/-- A raw step as passed to `register`: either a bare action string or an
object with optional `timeout`/`retries` (`0` is falsy in JS, so
`step.timeout || 300000` replaces `0` by the default too). -/
inductive RawStep where
  | name (action : String)
  | obj (action : String) (params : Option JVal) (condition : Option String)
      (timeout : Option Nat) (retries : Option Nat)

/-- JS truthiness of an optional number: `none` and `some 0` are falsy. -/
def orDefault (v : Option Nat) (d : Nat) : Nat :=
  match v with
  | some n => if n = 0 then d else n
  | none => d

/-- `WorkflowManager.normalizeSteps` on one step. -/
def normalizeStep : RawStep → WorkflowStep
  | .name a => { action := a, params := some (.vObj []), condition := none,
                 timeout := 300000, retries := 3 }
  | .obj a p c t r => { action := a, params := p, condition := c,
                        timeout := orDefault t 300000, retries := orDefault r 3 }

/-- `WorkflowManager.normalizeSteps`. -/
def normalizeSteps (steps : List RawStep) : List WorkflowStep :=
  steps.map normalizeStep

/-! ### Parameter template resolution (`WorkflowManager.resolveParams`) -/

/-- Split a code-unit string at every occurrence of `sep`, JS
`String.prototype.split` semantics: the result is never empty and empty
segments are kept. -/
def splitOnChar (sep : Nat) : List Nat → List (List Nat)
  | [] => [[]]
  | c :: cs =>
    if c = sep then [] :: splitOnChar sep cs
    else
      match splitOnChar sep cs with
      | t :: ts => (c :: t) :: ts
      | [] => [[c]]

/-- Code units of the two-character opening delimiter of a template token. -/
def openBB : List Nat := [123, 123]

/-- Code units of the two-character closing delimiter of a template token. -/
def closeBB : List Nat := [125, 125]

/-- Drop the last `n` elements of a list. -/
def dropRightN (n : Nat) (l : List Nat) : List Nat :=
  l.take (l.length - n)

/-- The source's token test and extraction:
`obj[key].startsWith(openBB) && obj[key].endsWith(closeBB)` followed by
`obj[key].slice(2, -2)`. -/
def tokenPath (s : List Nat) : Option (List Nat) :=
  if openBB.isPrefixOf s && closeBB.isSuffixOf s then
    some (dropRightN 2 (s.drop 2))
  else none

/-- One decimal digit of a code unit. -/
def decDigit? (c : Nat) : Option Nat :=
  if 48 ≤ c ∧ c ≤ 57 then some (c - 48) else none

/-- Decimal value of a digit string, `none` if any character is not a digit. -/
def digitsVal (s : List Nat) : Option Nat :=
  s.foldl
    (fun acc c =>
      match acc, decDigit? c with
      | some a, some d => some (a * 10 + d)
      | _, _ => none)
    (some 0)

/-- A canonical JS array index: a digit string with no superfluous leading
zero (JS property access `xs[key]` hits an array element only for such
keys). -/
def natOfDigits? (s : List Nat) : Option Nat :=
  match s with
  | [] => none
  | [c] => decDigit? c
  | c :: _ => if c = 48 then none else digitsVal s

/-- First-match association-list lookup used for JS object property access. -/
def lookupField : List (List Nat × JVal) → List Nat → Option JVal
  | [], _ => none
  | (k, v) :: rest, key => if k = key then some v else lookupField rest key

/-- One step of `getValueByPath`'s reduce: JS `current?.[key]`.  Property
access on anything without properties (including `undefined` and `null`)
yields `undefined` and never throws. -/
def jget (v : JVal) (key : List Nat) : JVal :=
  match v with
  | .vObj fields => (lookupField fields key).getD .vUndefined
  | .vArr xs =>
    match natOfDigits? key with
    | some i => xs.getD i .vUndefined
    | none => .vUndefined
  | _ => .vUndefined

/-- `WorkflowManager.getValueByPath(obj, path)`:
`path.split('.').reduce((current, key) => current?.[key], obj)`. -/
def getValueByPath (root : JVal) (path : List Nat) : JVal :=
  (splitOnChar 46 path).foldl jget root

mutual

/-- `WorkflowManager.resolveParams`'s `replaceTokens` applied to the
top-level (cloned) params object: values of objects and elements of
arrays are rewritten; the top-level value itself is never a substituted
string. -/
def replaceTokens (ctx : JVal) : JVal → JVal
  | .vObj fields => .vObj (substFields ctx fields)
  | .vArr xs => .vArr (substElems ctx xs)
  | v => v

/-- Rewrite the values of an object's fields. -/
def substFields (ctx : JVal) : List (List Nat × JVal) → List (List Nat × JVal)
  | [] => []
  | (k, v) :: rest => (k, substChild ctx v) :: substFields ctx rest

/-- Rewrite the elements of an array. -/
def substElems (ctx : JVal) : List JVal → List JVal
  | [] => []
  | v :: rest => substChild ctx v :: substElems ctx rest

/-- The body of the `for (const key in obj)` loop: a string that is a
whole template token is replaced wholesale by the path lookup; other
strings pass through; objects and arrays are rewritten recursively; all
other leaves are untouched. -/
def substChild (ctx : JVal) : JVal → JVal
  | .vStr s =>
    match tokenPath s with
    | some p => getValueByPath ctx p
    | none => .vStr s
  | .vObj fields => .vObj (substFields ctx fields)
  | .vArr xs => .vArr (substElems ctx xs)
  | v => v

end

/-- `WorkflowManager.resolveParams(params, execution)`: falsy params give
an empty object, otherwise the deep clone of `params` is rewritten. -/
def resolveParams (params : Option JVal) (ctx : JVal) : JVal :=
  match params with
  | none => .vObj []
  | some p => replaceTokens ctx p

/-- Code units of the key `params` of the execution object. -/
def kParams : List Nat := [112, 97, 114, 97, 109, 115]

/-- Code units of the key `results` of the execution object. -/
def kResults : List Nat := [114, 101, 115, 117, 108, 116, 115]

/-- The execution object as seen by `getValueByPath` and the condition
functions: its `params` input and the ordered list of prior step
results. -/
def ctxJson (params : JVal) (results : List JVal) : JVal :=
  .vObj [(kParams, params), (kResults, .vArr results)]

/-! ### Step and workflow execution (`WorkflowManager.execute{Step}`) -/

/-- Outcome of one `executeStep` call: the value returned or the error
thrown (`none` stands for JS `undefined` when no attempt ran), the number
of dispatch attempts performed, and the sleeps performed between
attempts, in order. -/
structure StepOutcome where
  result : Except (Option String) JVal
  attempts : Nat
  delays : List Nat

/-- The engine's environment: every behaviour of the external
collaborators is a parameter.  `dispatch action params attempt` is the
outcome of `integrationInstance[method](params)` on the given attempt
(a timeout is just one kind of error); `condEval` is the outcome of
evaluating a condition string against the execution object. -/
structure Env where
  hasIntegrationFor : String → Bool
  dispatch : String → JVal → Nat → Except String JVal
  condEval : String → JVal → Except String Bool

/-- The retry loop of `executeStep`: runs attempts `attempt`,
`attempt+1`, … while `attempt < policy.maxAttempts` (`remaining` is the
structural counter `policy.maxAttempts - attempt`, positive exactly when
the loop guard holds), sleeping `calculateDelay attempt policy` after
every failed attempt except the last, and rethrowing the last error once
attempts are exhausted (`.error none` is the JS `throw undefined` when no
attempt ever ran). -/
def runAttemptsGo (dispatch : Nat → Except String JVal) (policy : RetryPolicy) :
    Nat → Nat → Option String → StepOutcome
  | 0, _, lastError => ⟨.error lastError, 0, []⟩
  | remaining + 1, attempt, _ =>
    match dispatch attempt with
    | .ok v => ⟨.ok v, 1, []⟩
    | .error e =>
      let rest := runAttemptsGo dispatch policy remaining (attempt + 1) (some e)
      if attempt < policy.maxAttempts - 1 then
        ⟨rest.result, rest.attempts + 1, calculateDelay attempt policy :: rest.delays⟩
      else
        ⟨rest.result, rest.attempts + 1, rest.delays⟩

/-- The whole retry loop of `executeStep`, starting at attempt `0` with
no last error. -/
def runAttempts (dispatch : Nat → Except String JVal) (policy : RetryPolicy) : StepOutcome :=
  runAttemptsGo dispatch policy policy.maxAttempts 0 none

/-- The integration name parsed from an action string:
`const [integration, method] = step.action.split('.')`. -/
def integrationOf (action : String) : String :=
  (action.splitOn ".").headD ""

/-- `WorkflowManager.executeStep(step, execution, retryPolicy?)`.  The
integration lookup happens before any attempt; the retry loop uses the
given policy or the default one.  `step.retries` is not consulted. -/
def executeStep (env : Env) (step : WorkflowStep) (ctx : JVal)
    (retryPolicy : Option RetryPolicy) : StepOutcome :=
  if env.hasIntegrationFor (integrationOf step.action) then
    runAttempts (env.dispatch step.action (resolveParams step.params ctx))
      (retryPolicy.getD getDefaultRetryPolicy)
  else ⟨.error (some ("Integration not found: " ++ integrationOf step.action)), 0, []⟩

/-- `WorkflowManager.evaluateCondition`: any evaluation error is caught
and the condition reported as `false`. -/
def evaluateCondition (env : Env) (condition : String) (ctx : JVal) : Bool :=
  match env.condEval condition ctx with
  | .ok b => b
  | .error _ => false

/-- Events emitted by `execute` that the claims observe. -/
inductive Event where
  | started
  | progress (step : Nat) (totalSteps : Nat) (result : JVal)
  | completed
  | errored

/-- Terminal status of an Execution. -/
inductive ExecStatus where
  | completed
  | failed
deriving DecidableEq

/-- A registered workflow, as stored by `register`. -/
structure Workflow where
  steps : List WorkflowStep
  errorHandler : Option WorkflowStep
  retryPolicy : RetryPolicy

/-- Result of the step loop of `execute`: a terminal error if some step
exhausted its retries, the accumulated step results, and the progress
events emitted, in order. -/
structure RunResult where
  error : Option (Option String)
  results : List JVal
  events : List Event

/-- The `for (let i = 0; …)` loop of `execute`: evaluate the condition
(if present) against the current execution context, skip the step on
false (recording nothing), otherwise run it with the workflow's retry
policy; on success append the result and emit a progress event, on
failure stop with the error. -/
def executeSteps (env : Env) (policy : RetryPolicy) (params : JVal) (total : Nat) :
    List WorkflowStep → Nat → List JVal → RunResult
  | [], _, results => ⟨none, results, []⟩
  | step :: rest, i, results =>
    let ctx := ctxJson params results
    if (match step.condition with
        | some c => !(evaluateCondition env c ctx)
        | none => false) then
      executeSteps env policy params total rest (i + 1) results
    else
      match executeStep env step ctx (some policy) with
      | ⟨.ok r, _, _⟩ =>
        let next := executeSteps env policy params total rest (i + 1) (results ++ [r])
        ⟨next.error, next.results, .progress i total r :: next.events⟩
      | ⟨.error e, _, _⟩ => ⟨some e, results, []⟩

/-- The terminal state of one `execute` call. -/
structure Execution where
  status : ExecStatus
  results : List JVal
  error : Option (Option String)

/-- `WorkflowManager.execute` on a registered workflow: runs the steps in
order and either completes or — once some step exhausts its retries —
fails, rethrowing that step's error (the error handler runs best-effort
for its side effects only). -/
def execute (env : Env) (wf : Workflow) (params : JVal) : Execution × List Event :=
  let run := executeSteps env wf.retryPolicy params wf.steps.length wf.steps 0 []
  match run.error with
  | none => (⟨.completed, run.results, none⟩, .started :: run.events ++ [.completed])
  | some e => (⟨.failed, run.results, some e⟩, .started :: run.events ++ [.errored])

/-! ### Deduplication service (`src/services/deduplication/index.ts`)

Confidences are JS floats, modelled as `ℚ` with the exact value of the
source's formula (the name-similarity computation and its reachable NaN
are treated separately with the text algorithms below).  The outcome of
each configured strategy (an async call that returns a match list or
throws) is an explicit `Except` parameter. -/

/-- The `MatchResult` interface (the `entity` payload is irrelevant to
every claim and omitted). -/
structure MatchResult where
  id : String
  mtype : String
  confidence : ℚ
  matchedFields : List String
deriving DecidableEq

/-- The loop body of `deduplicateMatches`: `seen` is the set of ids
already kept; the first occurrence of each id survives. -/
def dedupGo (seen : List String) : List MatchResult → List MatchResult
  | [] => []
  | m :: rest =>
    if m.id ∈ seen then dedupGo seen rest
    else m :: dedupGo (m.id :: seen) rest

/-- `DeduplicationService.deduplicateMatches`. -/
def deduplicateMatches (ms : List MatchResult) : List MatchResult :=
  dedupGo [] ms

/-- Stable insertion of a later element below all strictly more
confident earlier ones (equal confidences keep the earlier element
first). -/
def insertByConf (m : MatchResult) : List MatchResult → List MatchResult
  | [] => [m]
  | x :: xs => if m.confidence < x.confidence then x :: insertByConf m xs else m :: x :: xs

/-- `uniqueMatches.sort((a, b) => b.confidence - a.confidence)`: JS
`Array.prototype.sort` is a stable sort under the comparator, modelled
here as a stable insertion sort by descending confidence. -/
def sortByConfDesc : List MatchResult → List MatchResult
  | [] => []
  | x :: xs => insertByConf x (sortByConfDesc xs)

/-- The post-processing pipeline of `findMatches`: deduplicate by id,
sort by descending confidence, filter by the confidence threshold. -/
def processMatches (ms : List MatchResult) (threshold : ℚ) : List MatchResult :=
  (sortByConfDesc (deduplicateMatches ms)).filter (fun m => threshold ≤ m.confidence)

/-- `DeduplicationConfig` (the strategy name list is represented by the
ordered list of strategy outcomes passed to `findMatches`). -/
structure DedupConfig where
  enabled : Bool
  confidence : ℚ
  cache : Bool

/-- A deduplication cache entry: the filtered match list and its write
timestamp (ms). -/
structure CacheEntry where
  stored : List MatchResult
  timestamp : Int

/-- The service's `Map`-backed cache: association list, newest entry
first (`Map.set` overwrites, `lookup` finds the newest). -/
abbrev DedupCache := List (String × CacheEntry)

/-- The cache read of `findMatches`: only when caching is configured,
and only when the entry is younger than the 1-hour TTL; a stale entry
falls through to re-evaluation. -/
def cacheRead (cfg : DedupConfig) (cache : DedupCache) (entityHash : String)
    (now : Int) : Option (List MatchResult) :=
  if cfg.cache then
    match cache.lookup entityHash with
    | some e => if now - e.timestamp < 3600000 then some e.stored else none
    | none => none
  else none

/-- The strategy loop of `findMatches`: results of successful strategies
are concatenated in configuration order; a throwing strategy is caught,
logged and contributes nothing. -/
def collectOk : List (Except String (List MatchResult)) → List MatchResult
  | [] => []
  | .ok ms :: rest => ms ++ collectOk rest
  | .error _ :: rest => collectOk rest

/-- `DeduplicationService.findMatches(entity)`, with the entity
abstracted to its content hash and the configured strategies to their
outcomes.  Returns the match list and the updated cache. -/
def findMatches (cfg : DedupConfig) (cache : DedupCache) (now : Int)
    (entityHash : String) (outcomes : List (Except String (List MatchResult))) :
    List MatchResult × DedupCache :=
  if cfg.enabled then
    match cacheRead cfg cache entityHash now with
    | some ms => (ms, cache)
    | none =>
      let filtered := processMatches (collectOk outcomes) cfg.confidence
      (filtered, if cfg.cache then (entityHash, ⟨filtered, now⟩) :: cache else cache)
  else ([], cache)

/-! ### Matching-strategy text algorithms

Strings are lists of UTF-16 code units (`List ℕ`).  Two lower-casing
models appear below: `lowerStr`, the per-unit ASCII case map used by the
address-normalization pipeline, and `jsLowerStr`, the full
`String.prototype.toLowerCase` whose one length-changing mapping
(U+0130) matters to the name-similarity bounds.  JS regex word
boundaries (`\b`) with `\w = [A-Za-z0-9_]` make a pattern `\bapt\b`
match exactly the maximal word-character runs equal to `apt`, which is
how `replaceWords` is defined. -/

/-- ASCII `toLowerCase` on one code unit (the restriction of the JS case
map to one-unit mappings; it is the identity off A–Z). -/
def toLowerCode (c : Nat) : Nat :=
  if 65 ≤ c ∧ c ≤ 90 then c + 32 else c

/-- `String.prototype.toLowerCase` as the address pipeline sees it: a
per-unit case map (on the addresses the pipeline normalizes this agrees
with the JS map unit for unit). -/
def lowerStr (s : List Nat) : List Nat :=
  s.map toLowerCode

/-- JS regex `\s` (the whitespace code points relevant to addresses). -/
def isWsCode (c : Nat) : Bool :=
  c = 32 || c = 9 || c = 10 || c = 11 || c = 12 || c = 13

/-- JS regex `\w`: `[A-Za-z0-9_]`. -/
def isWordCode (c : Nat) : Bool :=
  (48 ≤ c && c ≤ 57) || (65 ≤ c && c ≤ 90) || (97 ≤ c && c ≤ 122) || c = 95

/-- `.replace(/\./g, '')`. -/
def removeDots (s : List Nat) : List Nat :=
  s.filter (fun c => c != 46)

/-- `.replace(/,/g, ' ')`. -/
def commasToSpaces (s : List Nat) : List Nat :=
  s.map (fun c => if c = 44 then 32 else c)

/-- `.replace(/\s+/g, ' ')`: every maximal whitespace run becomes one
space. -/
def collapseWs : List Nat → List Nat
  | [] => []
  | c :: cs =>
    if isWsCode c then 32 :: collapseWs (cs.dropWhile isWsCode)
    else c :: collapseWs cs
termination_by s => s.length
decreasing_by
  · simpa using Nat.lt_succ_of_le (List.dropWhile_sublist isWsCode).length_le
  · simp

/-- The maximal word-character runs of a string, in order. -/
def wordRuns : List Nat → List (List Nat)
  | [] => []
  | c :: cs =>
    if isWordCode c then
      (c :: cs.takeWhile isWordCode) :: wordRuns (cs.dropWhile isWordCode)
    else wordRuns cs
termination_by s => s.length
decreasing_by
  · simpa using Nat.lt_succ_of_le (List.dropWhile_sublist isWordCode).length_le
  · simp

/-- Global replacement of a whole-word regex `\bw\b` by a word: rewrite
every maximal word run by `f`. -/
def replaceWords (f : List Nat → List Nat) : List Nat → List Nat
  | [] => []
  | c :: cs =>
    if isWordCode c then
      f (c :: cs.takeWhile isWordCode) ++ replaceWords f (cs.dropWhile isWordCode)
    else c :: replaceWords f cs
termination_by s => s.length
decreasing_by
  · simpa using Nat.lt_succ_of_le (List.dropWhile_sublist isWordCode).length_le
  · simp

/-- Code units of `apt`. -/
def wApt : List Nat := [97, 112, 116]

/-- Code units of `apartment`. -/
def wApartment : List Nat := [97, 112, 97, 114, 116, 109, 101, 110, 116]

/-- Code units of `st`. -/
def wSt : List Nat := [115, 116]

/-- Code units of `street`. -/
def wStreet : List Nat := [115, 116, 114, 101, 101, 116]

/-- Code units of `ave`. -/
def wAve : List Nat := [97, 118, 101]

/-- Code units of `avenue`. -/
def wAvenue : List Nat := [97, 118, 101, 110, 117, 101]

/-- Code units of `dr`. -/
def wDr : List Nat := [100, 114]

/-- Code units of `drive`. -/
def wDrive : List Nat := [100, 114, 105, 118, 101]

/-- Code units of `rd`. -/
def wRd : List Nat := [114, 100]

/-- Code units of `road`. -/
def wRoad : List Nat := [114, 111, 97, 100]

/-- Replace the word `src` by `dst`, leave every other word alone. -/
def replWord (src dst w : List Nat) : List Nat :=
  if w = src then dst else w

/-- `.trim()`. -/
def trimStr (s : List Nat) : List Nat :=
  (s.dropWhile isWsCode).rdropWhile isWsCode

/-- `DeduplicationService.normalizeAddress`: lower-case, strip dots,
commas to spaces, collapse whitespace, expand the five abbreviations
(in source order), trim. -/
def normalizeAddress (s : List Nat) : List Nat :=
  trimStr
    (replaceWords (replWord wRd wRoad)
      (replaceWords (replWord wDr wDrive)
        (replaceWords (replWord wAve wAvenue)
          (replaceWords (replWord wSt wStreet)
            (replaceWords (replWord wApt wApartment)
              (collapseWs (commasToSpaces (removeDots (lowerStr s)))))))))

/-- The five sequential whole-word replacements of `normalizeAddress`,
composed into one function on a word run (innermost first, in source
order: apt, st, ave, dr, rd). -/
def expandAll (w : List Nat) : List Nat :=
  replWord wRd wRoad (replWord wDr wDrive (replWord wAve wAvenue
    (replWord wSt wStreet (replWord wApt wApartment w))))

/-- A character that survives one normalization pass: lower-case-stable,
not a dot, not a comma, and whitespace only as a plain space. -/
def GoodChar (c : Nat) : Prop :=
  toLowerCode c = c ∧ c ≠ 46 ∧ c ≠ 44 ∧ (isWsCode c = true → c = 32)

/-- No two adjacent whitespace characters. -/
def NoAdjWs (t : List Nat) : Prop :=
  List.Chain' (fun x y => ¬(isWsCode x = true ∧ isWsCode y = true)) t

/-- The string-level normal form established by one `normalizeAddress`
pass: good characters, collapsed whitespace, trimmed ends, and no
remaining abbreviation word. -/
structure NormalForm (t : List Nat) : Prop where
  good : ∀ c ∈ t, GoodChar c
  noAdj : NoAdjWs t
  headOk : ∀ x, t.head? = some x → isWsCode x = false
  lastOk : ∀ x, t.getLast? = some x → isWsCode x = false
  runsOk : ∀ w ∈ wordRuns t, w ∉ ([wApt, wSt, wAve, wDr, wRd] : List (List Nat))

/-- Jaccard ratio of two finite token sets (`intersection.size /
union.size`, with JS `0/0` irrelevant because the splits below are never
empty; `ℚ` division is total with `x / 0 = 0`). -/
def jaccard (s t : Finset (List Nat)) : ℚ :=
  ((s ∩ t).card : ℚ) / ((s ∪ t).card : ℚ)

/-- `new Set(normalized.split(' '))`. -/
def addrTokens (s : List Nat) : Finset (List Nat) :=
  (splitOnChar 32 s).toFinset

/-- `DeduplicationService.calculateAddressConfidence`: re-normalizes both
arguments, returns `1.0` on equality, else the token-set Jaccard ratio. -/
def calculateAddressConfidence (addr1 addr2 : List Nat) : ℚ :=
  let n1 := normalizeAddress addr1
  let n2 := normalizeAddress addr2
  if n1 = n2 then 1 else jaccard (addrTokens n1) (addrTokens n2)

/-- `String.prototype.toLowerCase` on one UTF-16 code unit (Unicode
Default Case Conversion): ASCII letters map down one unit to one unit;
U+0130 (LATIN CAPITAL LETTER I WITH DOT ABOVE) is the single code point
whose lowercase mapping is longer, `0069 0307` (two units).  Every other
unit's mapping keeps its unit count; which unit such a mapping produces
never enters the theorems below (only lengths do), so those mappings are
modelled as the identity. -/
def jsLowerChar (c : Nat) : List Nat :=
  if 65 ≤ c ∧ c ≤ 90 then [c + 32]
  else if c = 304 then [105, 775]
  else [c]

/-- `String.prototype.toLowerCase` on a whole string: the concatenation
of the per-unit mappings. -/
def jsLowerStr : List Nat → List Nat
  | [] => []
  | c :: cs => jsLowerChar c ++ jsLowerStr cs

/-- `desc.split(/\s+/)`: split at maximal whitespace runs (JS keeps a
leading empty segment and a trailing one; the result is never empty). -/
def splitWsRuns : List Nat → List (List Nat)
  | [] => [[]]
  | c :: cs =>
    if isWsCode c then [] :: splitWsRuns (cs.dropWhile isWsCode)
    else
      match splitWsRuns cs with
      | t :: ts => (c :: t) :: ts
      | [] => [[c]]
termination_by s => s.length
decreasing_by
  · simpa using Nat.lt_succ_of_le (List.dropWhile_sublist isWsCode).length_le
  · simp

/-- `DeduplicationService.calculateDescriptionSimilarity`: token-set
Jaccard ratio over whitespace-split lower-cased descriptions. -/
def calculateDescriptionSimilarity (d1 d2 : List Nat) : ℚ :=
  jaccard (splitWsRuns (jsLowerStr d1)).toFinset (splitWsRuns (jsLowerStr d2)).toFinset

/-- `DeduplicationService.levenshteinDistance`: the DP matrix of the
source computes exactly this standard unit-cost edit-distance
recurrence (row `i`, column `j` of the matrix holds the distance
between the first `i` characters of `str2` and the first `j`
characters of `str1`). -/
def levenshteinDistance (s t : List Nat) : Nat :=
  match s, t with
  | [], t => t.length
  | s, [] => s.length
  | a :: s', b :: t' =>
    if a = b then levenshteinDistance s' t'
    else 1 + min (levenshteinDistance s' t')
      (min (levenshteinDistance (a :: s') t') (levenshteinDistance s' (b :: t')))
termination_by s.length + t.length
decreasing_by all_goals simp_arith

/-- `DeduplicationService.calculateNameSimilarity`: the source computes
`1 - distance / maxLength` in IEEE arithmetic, with the distance taken
on the lower-cased strings while `maxLength` uses the original lengths.
When `maxLength = 0` both names are empty, the distance is `0`, and
`1 - 0/0` is NaN — modelled as `none`.  When `maxLength > 0` the result
is a number whose sign and position relative to `[0,1]` agree with the
exact rational, which is the value carried here. -/
def calculateNameSimilarity (name1 name2 : List Nat) : Option ℚ :=
  if max name1.length name2.length = 0 then none
  else
    some (1 - (levenshteinDistance (jsLowerStr name1) (jsLowerStr name2) : ℚ) /
      ((max name1.length name2.length : Nat) : ℚ))

/-! ## Theorems

First the shared helper lemmas, then one theorem per claim (with its
witness or counterexample where required). -/

/-- On a permanently failing dispatch the retry loop performs exactly
`remaining` further attempts. -/
theorem runAttemptsGo_allFail (d : Nat → Except String JVal) (p : RetryPolicy)
    (e : Nat → String) (h : ∀ i, d i = .error (e i)) :
    ∀ remaining attempt last, (runAttemptsGo d p remaining attempt last).attempts = remaining := by
  intro remaining
  induction remaining with
  | zero => intro attempt last; rfl
  | succ n ih =>
    intro attempt last
    simp only [runAttemptsGo, h attempt]
    by_cases hlt : attempt < p.maxAttempts - 1 <;> simp [hlt, ih]

/-- A first-attempt success short-circuits the retry loop. -/
theorem runAttempts_firstOk (d : Nat → Except String JVal) (p : RetryPolicy)
    (v : JVal) (h : d 0 = .ok v) (hm : 0 < p.maxAttempts) :
    runAttempts d p = ⟨.ok v, 1, []⟩ := by
  obtain ⟨m, hm'⟩ := Nat.exists_eq_add_of_lt hm
  unfold runAttempts
  rw [show p.maxAttempts = m + 1 by omega]
  simp [runAttemptsGo, h]

/-- The no-condition all-success run of the step loop: every step
contributes its result in order and one progress event with its index. -/
theorem executeSteps_allOk
    (env : Env) (policy : RetryPolicy) (params : JVal) (total : Nat) (f : WorkflowStep → JVal)
    (hm : 0 < policy.maxAttempts) :
    ∀ (steps : List WorkflowStep) (i : Nat) (results : List JVal),
    (∀ s ∈ steps, s.condition = none) →
    (∀ s ∈ steps, env.hasIntegrationFor (integrationOf s.action) = true) →
    (∀ s ∈ steps, ∀ p, env.dispatch s.action p 0 = .ok (f s)) →
    executeSteps env policy params total steps i results
      = ⟨none, results ++ steps.map f,
          (steps.enumFrom i).map (fun q => .progress q.1 total (f q.2))⟩ := by
  intro steps
  induction steps with
  | nil => intro i results _ _ _; simp [executeSteps]
  | cons s rest ih =>
    intro i results hc hint hd
    have hstep : executeStep env s (ctxJson params results) (some policy) = ⟨.ok (f s), 1, []⟩ := by
      rw [executeStep, if_pos (hint s (by simp))]
      exact runAttempts_firstOk _ _ _ (hd s (by simp) _) hm
    rw [executeSteps, hstep]
    simp only [hc s (by simp)]
    rw [ih (i + 1) (results ++ [f s]) (fun t ht => hc t (by simp [ht]))
      (fun t ht => hint t (by simp [ht])) (fun t ht => hd t (by simp [ht]))]
    simp [List.enumFrom_cons]

/-- C1 counterexample: a one-step workflow whose condition string fails
to evaluate and whose dispatch would fail is *not* failed by the engine:
the condition error is swallowed (`evaluateCondition` returns `false`),
the step is skipped without a single dispatch attempt, and the Execution
completes with no results and no progress events — contradicting the
claim that a condition-evaluation error takes the step's failure path. -/
theorem conditionError_counterexample :
    (execute ⟨fun _ => true, fun _ _ _ => .error "dispatch boom", fun _ _ => .error "cond boom"⟩
        ⟨[⟨"a.b", none, some "cond", 300000, 3⟩], none, getDefaultRetryPolicy⟩ (.vObj [])).1.status
      = .completed
    ∧ (execute ⟨fun _ => true, fun _ _ _ => .error "dispatch boom", fun _ _ => .error "cond boom"⟩
        ⟨[⟨"a.b", none, some "cond", 300000, 3⟩], none, getDefaultRetryPolicy⟩ (.vObj [])).1.results
      = []
    ∧ (execute ⟨fun _ => true, fun _ _ _ => .error "dispatch boom", fun _ _ => .error "cond boom"⟩
        ⟨[⟨"a.b", none, some "cond", 300000, 3⟩], none, getDefaultRetryPolicy⟩ (.vObj [])).2
      = [.started, .completed] :=
  ⟨rfl, rfl, rfl⟩

/-- C1 amended: an error while evaluating a step's condition is caught
by `evaluateCondition` and reported as `false`, so the step is silently
skipped — no result is recorded, nothing counts against retries and the
Execution continues — rather than being treated as a step failure. -/
theorem conditionError_skipsStep
    (env : Env) (policy : RetryPolicy) (params : JVal) (total : Nat)
    (step : WorkflowStep) (rest : List WorkflowStep) (i : Nat) (results : List JVal)
    (c : String) (err : String)
    (hc : step.condition = some c)
    (h : env.condEval c (ctxJson params results) = .error err) :
    evaluateCondition env c (ctxJson params results) = false
    ∧ executeSteps env policy params total (step :: rest) i results
        = executeSteps env policy params total rest (i + 1) results := by
  have hev : evaluateCondition env c (ctxJson params results) = false := by
    simp [evaluateCondition, h]
  exact ⟨hev, by rw [executeSteps]; simp [hc, hev]⟩

/-- C1 amended witness at a concrete environment and workflow. -/
theorem conditionError_skipsStep_witness :
    evaluateCondition ⟨fun _ => true, fun _ _ _ => .ok .vNull, fun _ _ => .error "boom"⟩
        "cond" (ctxJson (.vObj []) []) = false
    ∧ executeSteps ⟨fun _ => true, fun _ _ _ => .ok .vNull, fun _ _ => .error "boom"⟩
        getDefaultRetryPolicy (.vObj []) 1 [⟨"a.b", none, some "cond", 300000, 3⟩] 0 []
        = executeSteps ⟨fun _ => true, fun _ _ _ => .ok .vNull, fun _ _ => .error "boom"⟩
            getDefaultRetryPolicy (.vObj []) 1 [] 1 [] :=
  conditionError_skipsStep _ getDefaultRetryPolicy (.vObj []) 1
    ⟨"a.b", none, some "cond", 300000, 3⟩ [] 0 [] "cond" "boom" rfl rfl

/-- C3: with the default policy (`maxAttempts = 3`, exponential backoff,
`initialDelay = 1000`, `maxDelay = 30000`), a permanently failing
dispatch is attempted exactly 3 times with computed sleeps of 1000 ms
then 2000 ms (each capped at `maxDelay`), after which the step's loop
rethrows the last error and the Execution fails with it. -/
theorem retryExhaustion_c3
    (d : Nat → Except String JVal) (e : Nat → String) (h : ∀ i, d i = .error (e i))
    (env : Env) (step : WorkflowStep) (params : JVal)
    (hstep : step.condition = none)
    (hint : env.hasIntegrationFor (integrationOf step.action) = true)
    (hd : ∀ p i, env.dispatch step.action p i = .error (e i)) :
    runAttempts d getDefaultRetryPolicy = ⟨.error (some (e 2)), 3, [1000, 2000]⟩
    ∧ executeStep env step (ctxJson params []) (some getDefaultRetryPolicy)
        = ⟨.error (some (e 2)), 3, [1000, 2000]⟩
    ∧ (execute env ⟨[step], none, getDefaultRetryPolicy⟩ params).1.status = .failed
    ∧ (execute env ⟨[step], none, getDefaultRetryPolicy⟩ params).1.error = some (some (e 2)) := by
  have hrun : ∀ (d' : Nat → Except String JVal), (∀ i, d' i = .error (e i)) →
      runAttempts d' getDefaultRetryPolicy = ⟨.error (some (e 2)), 3, [1000, 2000]⟩ := by
    intro d' h'
    unfold runAttempts getDefaultRetryPolicy
    simp [runAttemptsGo, h' 0, h' 1, h' 2, calculateDelay, getDefaultRetryPolicy]
  have hstep' : executeStep env step (ctxJson params []) (some getDefaultRetryPolicy)
      = ⟨.error (some (e 2)), 3, [1000, 2000]⟩ := by
    rw [executeStep, if_pos hint]
    exact hrun _ (fun i => hd _ i)
  refine ⟨hrun d h, hstep', ?_, ?_⟩ <;>
    simp [execute, executeSteps, hstep, hstep']

/-- C3 witness at a concrete dispatch, environment and step. -/
theorem retryExhaustion_c3_witness :
    runAttempts (fun _ => .error "x") getDefaultRetryPolicy
      = ⟨.error (some "x"), 3, [1000, 2000]⟩
    ∧ executeStep ⟨fun _ => true, fun _ _ _ => .error "x", fun _ _ => .ok true⟩
        ⟨"a.b", none, none, 300000, 3⟩ (ctxJson (.vObj []) []) (some getDefaultRetryPolicy)
        = ⟨.error (some "x"), 3, [1000, 2000]⟩
    ∧ (execute ⟨fun _ => true, fun _ _ _ => .error "x", fun _ _ => .ok true⟩
        ⟨[⟨"a.b", none, none, 300000, 3⟩], none, getDefaultRetryPolicy⟩ (.vObj [])).1.status
      = .failed
    ∧ (execute ⟨fun _ => true, fun _ _ _ => .error "x", fun _ _ => .ok true⟩
        ⟨[⟨"a.b", none, none, 300000, 3⟩], none, getDefaultRetryPolicy⟩ (.vObj [])).1.error
      = some (some "x") :=
  retryExhaustion_c3 (fun _ => .error "x") (fun _ => "x") (fun _ => rfl)
    _ ⟨"a.b", none, none, 300000, 3⟩ (.vObj []) rfl rfl (fun _ _ => rfl)

/-- C5 counterexample: a step whose own `retries` field is `1` is still
dispatched 3 times under the workflow policy — the per-step retry count
does not govern the number of attempts. -/
theorem retriesOverride_counterexample :
    (executeStep ⟨fun _ => true, fun _ _ _ => .error "boom", fun _ _ => .ok true⟩
        ⟨"a.b", none, none, 300000, 1⟩ (ctxJson (.vObj []) [])
        (some getDefaultRetryPolicy)).attempts = 3
    ∧ (⟨"a.b", none, none, 300000, 1⟩ : WorkflowStep).retries = 1
    ∧ (3 : Nat) ≠ 1 :=
  ⟨rfl, rfl, by decide⟩

/-- C5 amended: `executeStep` never consults the step's `retries` field —
replacing it changes nothing — and on a permanently failing dispatch the
number of attempts is always the retry policy's `maxAttempts` (the
workflow-level policy or, absent that, the default), whatever the step's
`retries` value.  `normalizeSteps` fills the field (default 3) but no
consumer reads it. -/
theorem retriesField_ignored
    (env : Env) (step : WorkflowStep) (ctx : JVal) (pol : Option RetryPolicy) (r : Nat)
    (e : Nat → String)
    (hd : ∀ p i, env.dispatch step.action p i = .error (e i)) :
    executeStep env { step with retries := r } ctx pol = executeStep env step ctx pol
    ∧ (env.hasIntegrationFor (integrationOf step.action) = true →
        (executeStep env step ctx pol).attempts = (pol.getD getDefaultRetryPolicy).maxAttempts) := by
  constructor
  · rfl
  · intro hint
    rw [executeStep, if_pos hint]
    exact runAttemptsGo_allFail _ _ e (fun i => hd _ i) _ 0 none

/-- C5 amended witness: a step with `retries = 1` behaves identically to
the same step with `retries = 7`, and is attempted `maxAttempts = 3`
times. -/
theorem retriesField_ignored_witness :
    executeStep ⟨fun _ => true, fun _ _ _ => .error "boom", fun _ _ => .ok true⟩
        { (⟨"a.b", none, none, 300000, 7⟩ : WorkflowStep) with retries := 1 }
        (ctxJson (.vObj []) []) (some getDefaultRetryPolicy)
      = executeStep ⟨fun _ => true, fun _ _ _ => .error "boom", fun _ _ => .ok true⟩
        ⟨"a.b", none, none, 300000, 7⟩ (ctxJson (.vObj []) []) (some getDefaultRetryPolicy)
    ∧ (executeStep ⟨fun _ => true, fun _ _ _ => .error "boom", fun _ _ => .ok true⟩
        ⟨"a.b", none, none, 300000, 7⟩ (ctxJson (.vObj []) [])
        (some getDefaultRetryPolicy)).attempts = 3 :=
  ⟨(retriesField_ignored _ ⟨"a.b", none, none, 300000, 7⟩ _ _ 1 (fun _ => "boom")
      (fun _ _ => rfl)).1,
    (retriesField_ignored _ ⟨"a.b", none, none, 300000, 7⟩ _ _ 1 (fun _ => "boom")
      (fun _ _ => rfl)).2 rfl⟩

/-- C8: a step whose condition evaluates to false is skipped with
nothing appended to the results, and a workflow of `N` condition-free
steps whose dispatches all succeed completes with exactly `N` step
results in step order and one `workflow.progress` event per step
carrying indices `0..N-1`. -/
theorem stepResults_inOrder_c8
    (env : Env) (wf : Workflow) (params : JVal) (f : WorkflowStep → JVal)
    (hm : 0 < wf.retryPolicy.maxAttempts)
    (hc : ∀ s ∈ wf.steps, s.condition = none)
    (hint : ∀ s ∈ wf.steps, env.hasIntegrationFor (integrationOf s.action) = true)
    (hd : ∀ s ∈ wf.steps, ∀ p, env.dispatch s.action p 0 = .ok (f s)) :
    (execute env wf params).1.status = .completed
    ∧ (execute env wf params).1.results = wf.steps.map f
    ∧ (execute env wf params).2
        = .started :: ((wf.steps.enum.map fun q => Event.progress q.1 wf.steps.length (f q.2))
            ++ [.completed])
    ∧ ∀ (policy : RetryPolicy) (total i : Nat) (results : List JVal)
        (step : WorkflowStep) (rest : List WorkflowStep) (c : String),
        step.condition = some c →
        evaluateCondition env c (ctxJson params results) = false →
        executeSteps env policy params total (step :: rest) i results
          = executeSteps env policy params total rest (i + 1) results := by
  have hall := executeSteps_allOk env wf.retryPolicy params wf.steps.length f hm
    wf.steps 0 [] hc hint hd
  refine ⟨?_, ?_, ?_, ?_⟩
  · simp [execute, hall]
  · simp [execute, hall]
  · simp [execute, hall, List.enum]
  · intro policy total i results step rest c hcond hev
    rw [executeSteps]
    simp [hcond, hev]

/-- C8 witness: a concrete two-step condition-free workflow and a
concrete skipped conditional step. -/
theorem stepResults_inOrder_c8_witness :
    (execute ⟨fun _ => true, fun _ _ _ => .ok (.vNum 7), fun _ _ => .ok false⟩
        ⟨[⟨"a.b", none, none, 300000, 3⟩, ⟨"a.c", none, none, 300000, 3⟩], none,
          getDefaultRetryPolicy⟩ (.vObj [])).1.status = .completed
    ∧ (execute ⟨fun _ => true, fun _ _ _ => .ok (.vNum 7), fun _ _ => .ok false⟩
        ⟨[⟨"a.b", none, none, 300000, 3⟩, ⟨"a.c", none, none, 300000, 3⟩], none,
          getDefaultRetryPolicy⟩ (.vObj [])).1.results = [.vNum 7, .vNum 7]
    ∧ (execute ⟨fun _ => true, fun _ _ _ => .ok (.vNum 7), fun _ _ => .ok false⟩
        ⟨[⟨"a.b", none, none, 300000, 3⟩, ⟨"a.c", none, none, 300000, 3⟩], none,
          getDefaultRetryPolicy⟩ (.vObj [])).2
      = [.started, .progress 0 2 (.vNum 7), .progress 1 2 (.vNum 7), .completed]
    ∧ executeSteps ⟨fun _ => true, fun _ _ _ => .ok (.vNum 7), fun _ _ => .ok false⟩
        getDefaultRetryPolicy (.vObj []) 5 [⟨"a.b", none, some "c0", 300000, 3⟩] 2 []
      = executeSteps ⟨fun _ => true, fun _ _ _ => .ok (.vNum 7), fun _ _ => .ok false⟩
        getDefaultRetryPolicy (.vObj []) 5 [] 3 [] := by
  have h := stepResults_inOrder_c8
    ⟨fun _ => true, fun _ _ _ => .ok (.vNum 7), fun _ _ => .ok false⟩
    ⟨[⟨"a.b", none, none, 300000, 3⟩, ⟨"a.c", none, none, 300000, 3⟩], none,
      getDefaultRetryPolicy⟩ (.vObj []) (fun _ => .vNum 7) (by decide)
    (by intro s hs; fin_cases hs <;> rfl)
    (by intro s hs; fin_cases hs <;> rfl)
    (by intro s hs p; fin_cases hs <;> rfl)
  refine ⟨h.1, by simpa using h.2.1, by simpa using h.2.2.1, ?_⟩
  exact h.2.2.2 getDefaultRetryPolicy 5 2 [] ⟨"a.b", none, some "c0", 300000, 3⟩ [] "c0" rfl rfl

/-- Membership in a stable insertion. -/
theorem mem_insertByConf {m a : MatchResult} {l : List MatchResult} :
    a ∈ insertByConf m l ↔ a = m ∨ a ∈ l := by
  induction l with
  | nil => simp [insertByConf]
  | cons x xs ih =>
    by_cases h : m.confidence < x.confidence
    · simp only [insertByConf, if_pos h, List.mem_cons, ih]
      tauto
    · simp only [insertByConf, if_neg h, List.mem_cons]

/-- A stable insertion is a permutation of consing. -/
theorem insertByConf_perm (m : MatchResult) (l : List MatchResult) :
    (insertByConf m l).Perm (m :: l) := by
  induction l with
  | nil => exact List.Perm.refl _
  | cons x xs ih =>
    by_cases h : m.confidence < x.confidence
    · rw [insertByConf, if_pos h]
      exact (ih.cons x).trans (List.Perm.swap m x xs)
    · rw [insertByConf, if_neg h]

/-- The sort is a permutation of its input. -/
theorem sortByConfDesc_perm (l : List MatchResult) : (sortByConfDesc l).Perm l := by
  induction l with
  | nil => exact List.Perm.refl _
  | cons x xs ih => exact (insertByConf_perm x (sortByConfDesc xs)).trans (ih.cons x)

/-- Stable insertion preserves the descending-confidence ordering. -/
theorem pairwise_insertByConf {m : MatchResult} {l : List MatchResult}
    (h : l.Pairwise (fun a b => b.confidence ≤ a.confidence)) :
    (insertByConf m l).Pairwise (fun a b => b.confidence ≤ a.confidence) := by
  induction l with
  | nil => simp [insertByConf]
  | cons x xs ih =>
    rcases List.pairwise_cons.mp h with ⟨hx, hxs⟩
    by_cases hlt : m.confidence < x.confidence
    · rw [insertByConf, if_pos hlt]
      refine List.pairwise_cons.mpr ⟨?_, ih hxs⟩
      intro b hb
      rcases mem_insertByConf.mp hb with rfl | hb'
      · exact le_of_lt hlt
      · exact hx b hb'
    · rw [insertByConf, if_neg hlt]
      refine List.pairwise_cons.mpr ⟨?_, h⟩
      intro b hb
      rcases List.mem_cons.mp hb with rfl | hb'
      · exact le_of_not_lt hlt
      · exact le_trans (hx b hb') (le_of_not_lt hlt)

/-- The sort output is ordered by descending confidence. -/
theorem pairwise_sortByConfDesc (l : List MatchResult) :
    (sortByConfDesc l).Pairwise (fun a b => b.confidence ≤ a.confidence) := by
  induction l with
  | nil => simp [sortByConfDesc]
  | cons x xs ih => exact pairwise_insertByConf ih

/-- Every survivor of the dedup loop has an unseen id and is the first
element of the input with its id. -/
theorem dedupGo_find? :
    ∀ (ms : List MatchResult) (seen : List String) (m : MatchResult),
      m ∈ dedupGo seen ms →
      m.id ∉ seen ∧ ms.find? (fun x => x.id == m.id) = some m := by
  intro ms
  induction ms with
  | nil => intro seen m hm; simp [dedupGo] at hm
  | cons x rest ih =>
    intro seen m hm
    rw [dedupGo] at hm
    by_cases hx : x.id ∈ seen
    · rw [if_pos hx] at hm
      obtain ⟨hns, hf⟩ := ih seen m hm
      have hne : (x.id == m.id) = false := by
        simp only [beq_eq_false_iff_ne]
        intro hEq
        exact hns (hEq ▸ hx)
      exact ⟨hns, by rw [List.find?_cons, hne, hf]⟩
    · rw [if_neg hx] at hm
      rcases List.mem_cons.mp hm with rfl | hm'
      · exact ⟨hx, by rw [List.find?_cons, beq_self_eq_true]⟩
      · obtain ⟨hns, hf⟩ := ih _ m hm'
        have hmx : (x.id == m.id) = false := by
          simp only [beq_eq_false_iff_ne]
          intro hEq
          exact hns (by simp [hEq])
        exact ⟨fun hs => hns (List.mem_cons_of_mem _ hs), by rw [List.find?_cons, hmx, hf]⟩

/-- The dedup loop returns pairwise-distinct ids. -/
theorem dedupGo_ids_nodup :
    ∀ (ms : List MatchResult) (seen : List String),
      ((dedupGo seen ms).map (fun m => m.id)).Nodup := by
  intro ms
  induction ms with
  | nil => intro seen; simp [dedupGo]
  | cons x rest ih =>
    intro seen
    rw [dedupGo]
    by_cases hx : x.id ∈ seen
    · simpa [hx] using ih seen
    · simp only [if_neg hx, List.map_cons, List.nodup_cons]
      refine ⟨?_, ih _⟩
      intro hmem
      obtain ⟨m, hm, hid⟩ := List.mem_map.mp hmem
      exact (dedupGo_find? rest _ m hm).1 (by simp [hid])

/-- The four properties of the `findMatches` post-processing pipeline:
distinct ids, descending confidence, everything at or above the
threshold, and each survivor is the first input element with its id. -/
theorem processMatches_spec (ms : List MatchResult) (threshold : ℚ) :
    ((processMatches ms threshold).map (fun m => m.id)).Nodup
    ∧ (processMatches ms threshold).Pairwise (fun a b => b.confidence ≤ a.confidence)
    ∧ (∀ m ∈ processMatches ms threshold, threshold ≤ m.confidence)
    ∧ (∀ m ∈ processMatches ms threshold, ms.find? (fun x => x.id == m.id) = some m) := by
  have hsub : (processMatches ms threshold).Sublist (sortByConfDesc (deduplicateMatches ms)) :=
    List.filter_sublist _
  have hperm := sortByConfDesc_perm (deduplicateMatches ms)
  refine ⟨?_, ?_, ?_, ?_⟩
  · have h1 : ((sortByConfDesc (deduplicateMatches ms)).map (fun m => m.id)).Nodup :=
      ((hperm.map (fun m => m.id)).nodup_iff).mpr (dedupGo_ids_nodup ms [])
    exact (hsub.map (fun m => m.id)).nodup h1
  · exact List.Pairwise.sublist hsub (pairwise_sortByConfDesc _)
  · intro m hm
    have := List.of_mem_filter hm
    simpa using this
  · intro m hm
    have hm' : m ∈ deduplicateMatches ms := hperm.mem_iff.mp (hsub.mem hm)
    exact (dedupGo_find? ms [] m hm').2

/-- C2: whenever `findMatches` actually evaluates the strategies (the
cache read misses), the returned list is the post-processed combined
strategy output: no candidate id appears twice and the survivor of each
id is the first match with that id in strategy order, the list is sorted
by descending confidence, and every confidence is at or above the
configured threshold. -/
theorem findMatches_processed_c2
    (cfg : DedupConfig) (cache : DedupCache) (now : Int) (entityHash : String)
    (outcomes : List (Except String (List MatchResult)))
    (he : cfg.enabled = true)
    (hmiss : cacheRead cfg cache entityHash now = none) :
    (findMatches cfg cache now entityHash outcomes).1
      = processMatches (collectOk outcomes) cfg.confidence
    ∧ (((findMatches cfg cache now entityHash outcomes).1.map (fun m => m.id)).Nodup)
    ∧ ((findMatches cfg cache now entityHash outcomes).1.Pairwise
        (fun a b => b.confidence ≤ a.confidence))
    ∧ (∀ m ∈ (findMatches cfg cache now entityHash outcomes).1, cfg.confidence ≤ m.confidence)
    ∧ (∀ m ∈ (findMatches cfg cache now entityHash outcomes).1,
        (collectOk outcomes).find? (fun x => x.id == m.id) = some m) := by
  have hfst : (findMatches cfg cache now entityHash outcomes).1
      = processMatches (collectOk outcomes) cfg.confidence := by
    rw [findMatches, if_pos he, hmiss]
  obtain ⟨h1, h2, h3, h4⟩ := processMatches_spec (collectOk outcomes) cfg.confidence
  exact ⟨hfst, hfst ▸ h1, hfst ▸ h2, hfst ▸ h3, hfst ▸ h4⟩

/-- C2 witness: two strategies, one failing, with a duplicated candidate
id and one below-threshold match. -/
theorem findMatches_processed_c2_witness :
    (findMatches ⟨true, 1, false⟩ [] 0 "h"
        [.ok [⟨"a", "t", 1, []⟩, ⟨"b", "t", 0, []⟩], .error "x", .ok [⟨"a", "u", 1, []⟩]]).1
      = processMatches
          (collectOk [.ok [⟨"a", "t", 1, []⟩, ⟨"b", "t", 0, []⟩], .error "x",
            .ok [⟨"a", "u", 1, []⟩]]) 1
    ∧ (findMatches ⟨true, 1, false⟩ [] 0 "h"
        [.ok [⟨"a", "t", 1, []⟩, ⟨"b", "t", 0, []⟩], .error "x", .ok [⟨"a", "u", 1, []⟩]]).1
      = [⟨"a", "t", 1, []⟩] :=
  ⟨(findMatches_processed_c2 ⟨true, 1, false⟩ [] 0 "h" _ rfl rfl).1, by decide⟩

/-- Removing a failing strategy outcome does not change the collected
list. -/
theorem collectOk_drop_error (xs ys : List (Except String (List MatchResult))) (err : String) :
    collectOk (xs ++ .error err :: ys) = collectOk (xs ++ ys) := by
  induction xs with
  | nil => rfl
  | cons x rest ih =>
    cases x <;> simp [collectOk, ih]

/-- C6: `findMatches` always returns a list — with deduplication
disabled it returns the empty list at once (whatever the strategy
outcomes), and a strategy that throws is excluded while every other
strategy's results are still collected: inserting a failing outcome
anywhere changes nothing. -/
theorem findMatches_total_c6
    (cfg : DedupConfig) (cache : DedupCache) (now : Int) (entityHash : String)
    (outcomes xs ys : List (Except String (List MatchResult))) (err : String) :
    findMatches { cfg with enabled := false } cache now entityHash outcomes = ([], cache)
    ∧ findMatches cfg cache now entityHash (xs ++ .error err :: ys)
        = findMatches cfg cache now entityHash (xs ++ ys) := by
  constructor
  · rw [findMatches]
    simp
  · rw [findMatches, findMatches, collectOk_drop_error]

/-- C7: the deduplication cache is never served stale, and is served
verbatim within the TTL.  With caching enabled: (a) when the entry for
the entity's hash is at least one hour old the cached list is ignored
and the strategies are fully re-evaluated; (b) when a first call misses
the cache, a second call within one hour returns exactly the first
call's list, whatever the strategy outcomes would be by then. -/
theorem cacheTTL_c7
    (cfg : DedupConfig) (cache : DedupCache) (t0 t1 : Int) (entityHash : String)
    (outcomes outcomes2 : List (Except String (List MatchResult)))
    (entry : CacheEntry)
    (he : cfg.enabled = true) (hc : cfg.cache = true) :
    (cache.lookup entityHash = some entry → 3600000 ≤ t0 - entry.timestamp →
      (findMatches cfg cache t0 entityHash outcomes).1
        = processMatches (collectOk outcomes) cfg.confidence)
    ∧ (cache.lookup entityHash = none → 0 ≤ t1 - t0 → t1 - t0 < 3600000 →
      (findMatches cfg ((findMatches cfg cache t0 entityHash outcomes).2) t1 entityHash
          outcomes2).1
        = (findMatches cfg cache t0 entityHash outcomes).1) := by
  constructor
  · intro hl hstale
    have hmiss : cacheRead cfg cache entityHash t0 = none := by
      rw [cacheRead, if_pos hc, hl]
      show (if t0 - entry.timestamp < 3600000 then some entry.stored else none) = none
      rw [if_neg (by omega)]
    rw [findMatches, if_pos he, hmiss]
  · intro hl h0 h1
    have hmiss : cacheRead cfg cache entityHash t0 = none := by
      rw [cacheRead, if_pos hc, hl]
    have hfirst : findMatches cfg cache t0 entityHash outcomes
        = (processMatches (collectOk outcomes) cfg.confidence,
            (entityHash, ⟨processMatches (collectOk outcomes) cfg.confidence, t0⟩) :: cache) := by
      rw [findMatches, if_pos he, hmiss]
      simp [hc]
    have hhit : cacheRead cfg ((findMatches cfg cache t0 entityHash outcomes).2) entityHash t1
        = some (processMatches (collectOk outcomes) cfg.confidence) := by
      rw [hfirst]
      rw [cacheRead, if_pos hc]
      simp only [List.lookup_cons_self]
      rw [if_pos (by omega)]
    rw [findMatches, if_pos he, hhit, hfirst]

/-- C7 witness: a stale entry (one hour and one ms old) is re-evaluated;
a fresh miss at `t0 = 0` is served from cache at `t1 = 10` even though
the strategies would now return nothing. -/
theorem cacheTTL_c7_witness :
    (findMatches ⟨true, 0, true⟩ [("h", ⟨[⟨"z", "t", 1, []⟩], 0⟩)] 3600001 "h"
        [.ok [⟨"a", "t", 1, []⟩]]).1
      = processMatches (collectOk [.ok [⟨"a", "t", 1, []⟩]]) 0
    ∧ (findMatches ⟨true, 0, true⟩
        ((findMatches ⟨true, 0, true⟩ [] 0 "h" [.ok [⟨"a", "t", 1, []⟩]]).2) 10 "h" []).1
      = (findMatches ⟨true, 0, true⟩ [] 0 "h" [.ok [⟨"a", "t", 1, []⟩]]).1 :=
  ⟨(cacheTTL_c7 ⟨true, 0, true⟩ [("h", ⟨[⟨"z", "t", 1, []⟩], 0⟩)] 3600001 10 "h"
      [.ok [⟨"a", "t", 1, []⟩]] [] ⟨[⟨"z", "t", 1, []⟩], 0⟩ rfl rfl).1 rfl (by decide),
    (cacheTTL_c7 ⟨true, 0, true⟩ [] 0 10 "h" [.ok [⟨"a", "t", 1, []⟩]] [] ⟨[], 0⟩
      rfl rfl).2 rfl (by decide) (by decide)⟩

/-- A string of the exact whole-token shape extracts exactly its middle. -/
theorem tokenPath_whole (p : List Nat) :
    tokenPath (openBB ++ p ++ closeBB) = some p := by
  rw [tokenPath]
  have hpre : openBB.isPrefixOf (openBB ++ p ++ closeBB) = true := by
    rw [List.isPrefixOf_iff_prefix, List.append_assoc]
    exact List.prefix_append _ _
  have hsuf : closeBB.isSuffixOf (openBB ++ p ++ closeBB) = true := by
    rw [List.isSuffixOf_iff_suffix]
    exact List.suffix_append _ _
  rw [hpre, hsuf]
  simp only [Bool.and_self, if_true]
  congr 1
  rw [List.append_assoc]
  show dropRightN 2 (p ++ closeBB) = p
  rw [dropRightN]
  have hlen : (p ++ closeBB).length - 2 = p.length := by simp [closeBB]
  rw [hlen, List.take_left]

/-- The code's affix test recognizes exactly the whole-token strings:
`startsWith` plus `endsWith` is equivalent to an exact
`openBB ++ path ++ closeBB` decomposition (which is then unique). -/
theorem tokenPath_some_iff (s q : List Nat) :
    tokenPath s = some q ↔ s = openBB ++ q ++ closeBB := by
  constructor
  · intro h
    rw [tokenPath] at h
    by_cases hb : (openBB.isPrefixOf s && closeBB.isSuffixOf s) = true
    · obtain ⟨t, rfl⟩ := List.isPrefixOf_iff_prefix.mp (Bool.and_elim_left hb)
      have hsuf := List.isSuffixOf_iff_suffix.mp (Bool.and_elim_right hb)
      obtain ⟨u, hu⟩ := hsuf
      match t with
      | [] =>
        have hlen := congrArg List.length hu
        simp only [List.length_append, openBB, closeBB, List.length_cons,
          List.length_nil, List.append_nil] at hlen
        have hu0 : u = [] := List.length_eq_zero.mp (by omega)
        rw [hu0] at hu
        simp [openBB, closeBB] at hu
      | [x] =>
        have hlen := congrArg List.length hu
        simp only [List.length_append, openBB, closeBB, List.length_cons,
          List.length_nil] at hlen
        obtain ⟨a, hu1⟩ := List.length_eq_one.mp (show u.length = 1 by omega)
        rw [hu1] at hu
        simp [openBB, closeBB] at hu
      | x :: y :: t' =>
        have hlen : u.length = (x :: y :: t').length := by
          have := congrArg List.length hu
          simp [openBB, closeBB] at this ⊢
          omega
        have htake : u.take 2 = openBB := by
          have h2 : (u ++ closeBB).take 2 = u.take 2 :=
            List.take_append_of_le_length (by simp [hlen])
          have h3 : (openBB ++ x :: y :: t').take 2 = openBB :=
            List.take_left openBB (x :: y :: t')
          rw [hu] at h2
          rw [← h2, h3]
        have hu' : u = openBB ++ u.drop 2 := by
          conv_lhs => rw [← List.take_append_drop 2 u]
          rw [htake]
        have ht : x :: y :: t' = u.drop 2 ++ closeBB := by
          have hcat : openBB ++ (x :: y :: t') = openBB ++ (u.drop 2 ++ closeBB) := by
            rw [← hu]
            conv_lhs => rw [hu']
            rw [List.append_assoc]
          exact List.append_cancel_left hcat
        rw [if_pos hb] at h
        have hmid : q = dropRightN 2 (List.drop 2 (openBB ++ x :: y :: t')) :=
          (Option.some_inj.mp h).symm
        have hq : q = u.drop 2 := by
          rw [hmid]
          show dropRightN 2 (x :: y :: t') = u.drop 2
          rw [ht, dropRightN]
          have hl2 : (u.drop 2 ++ closeBB).length - 2 = (u.drop 2).length := by
            simp [closeBB]
          rw [hl2, List.take_left]
        rw [hq, ht, List.append_assoc]
    · rw [if_neg hb] at h
      exact absurd h (by simp)
  · rintro rfl
    exact tokenPath_whole q

/-- A path lookup starting from `undefined` stays `undefined`: JS
optional chaining never throws. -/
theorem getValueByPath_undef (path : List Nat) :
    getValueByPath .vUndefined path = .vUndefined := by
  rw [getValueByPath]
  generalize splitOnChar 46 path = segs
  induction segs with
  | nil => rfl
  | cons k rest ih => simpa [List.foldl_cons, jget] using ih

/-- `substFields` is the pointwise rewrite of the field values. -/
theorem substFields_eq_map (ctx : JVal) (fields : List (List Nat × JVal)) :
    substFields ctx fields = fields.map (fun kv => (kv.1, substChild ctx kv.2)) := by
  induction fields with
  | nil => rfl
  | cons kv rest ih => cases kv; simp [substFields, ih]

/-- C4: parameter-template substitution semantics.  A string leaf of the
exact shape `openBB ++ path ++ closeBB` — and the affix test recognizes
exactly those strings, with a unique middle — is replaced wholesale by
the context lookup of the dot-separated `path`; any other string leaf
passes through unchanged (no partial interpolation); a path through a
missing property resolves to `undefined` without failing; objects are
rewritten field-by-field and falsy params resolve to the empty object. -/
theorem resolveParams_semantics_c4 (ctx : JVal) (p s q path key : List Nat)
    (fields : List (List Nat × JVal)) :
    substChild ctx (.vStr (openBB ++ p ++ closeBB)) = getValueByPath ctx p
    ∧ (tokenPath s = some q ↔ s = openBB ++ q ++ closeBB)
    ∧ (tokenPath s = none → substChild ctx (.vStr s) = .vStr s)
    ∧ getValueByPath .vUndefined path = .vUndefined
    ∧ (lookupField fields key = none → jget (.vObj fields) key = .vUndefined)
    ∧ replaceTokens ctx (.vObj fields)
        = .vObj (fields.map (fun kv => (kv.1, substChild ctx kv.2)))
    ∧ resolveParams none ctx = .vObj [] := by
  refine ⟨?_, tokenPath_some_iff s q, ?_, getValueByPath_undef path, ?_, ?_, rfl⟩
  · rw [substChild, tokenPath_whole]
  · intro h
    rw [substChild, h]
  · intro h
    rw [jget, h]
    rfl
  · rw [replaceTokens, substFields_eq_map]

/-- C4 witness: the token `openBB ++ "a" ++ closeBB` resolves through a
params object; a non-token string passes through; a missing key is
`undefined`. -/
theorem resolveParams_semantics_c4_witness :
    substChild (ctxJson (.vObj [([97], .vNum 5)]) []) (.vStr (openBB ++ [97] ++ closeBB))
      = getValueByPath (ctxJson (.vObj [([97], .vNum 5)]) []) [97]
    ∧ (tokenPath [123, 123, 97, 125, 125] = some [97]
        ↔ [123, 123, 97, 125, 125] = openBB ++ [97] ++ closeBB)
    ∧ substChild (ctxJson (.vObj [([97], .vNum 5)]) []) (.vStr [97, 123, 123, 98, 125, 125])
      = .vStr [97, 123, 123, 98, 125, 125]
    ∧ getValueByPath .vUndefined [97, 46, 98] = .vUndefined
    ∧ jget (.vObj []) [99] = .vUndefined :=
  have h := resolveParams_semantics_c4 (ctxJson (.vObj [([97], .vNum 5)]) [])
    [97] [123, 123, 97, 125, 125] [97] [97, 46, 98] [99] []
  have h2 := resolveParams_semantics_c4 (ctxJson (.vObj [([97], .vNum 5)]) [])
    [97] [97, 123, 123, 98, 125, 125] [97] [97, 46, 98] [99] []
  ⟨h.1, h.2.1, h2.2.2.1 rfl, h.2.2.2.1, h.2.2.2.2.1 rfl⟩

/-- The unit-cost edit distance is bounded by the longer length. -/
theorem levenshteinDistance_le (s t : List Nat) :
    levenshteinDistance s t ≤ max s.length t.length := by
  induction s, t using levenshteinDistance.induct with
  | case1 t => simp [levenshteinDistance]
  | case2 s h =>
    match s, h with
    | a :: s', _ => simp [levenshteinDistance]
  | case3 s' b t' ih =>
    rw [levenshteinDistance]
    simp only [if_true, eq_self_iff_true, List.length_cons]
    omega
  | case4 a s' b t' hab ih1 ih2 ih3 =>
    rw [levenshteinDistance]
    simp only [if_neg hab, List.length_cons]
    omega

/-- A JS split never returns the empty list. -/
theorem splitOnChar_ne_nil (sep : Nat) (s : List Nat) : splitOnChar sep s ≠ [] := by
  induction s with
  | nil => simp [splitOnChar]
  | cons c cs ih =>
    rw [splitOnChar]
    by_cases hc : c = sep
    · simp [hc]
    · simp only [if_neg hc]
      cases h : splitOnChar sep cs <;> simp

/-- A JS regex split never returns the empty list. -/
theorem splitWsRuns_ne_nil (s : List Nat) : splitWsRuns s ≠ [] := by
  induction s using splitWsRuns.induct with
  | case1 => simp [splitWsRuns]
  | case2 c cs hc ih =>
    rw [splitWsRuns]
    simp [hc]
  | case3 c cs hc t ts hsplit ih =>
    rw [splitWsRuns]
    simp only [if_neg hc, hsplit]
    simp
  | case4 c cs hc hsplit ih => exact absurd hsplit ih

/-- The Jaccard ratio is symmetric. -/
theorem jaccard_symm (s t : Finset (List Nat)) : jaccard s t = jaccard t s := by
  rw [jaccard, jaccard, Finset.inter_comm, Finset.union_comm]

/-- The Jaccard ratio is nonnegative. -/
theorem jaccard_nonneg (s t : Finset (List Nat)) : 0 ≤ jaccard s t :=
  div_nonneg (Nat.cast_nonneg _) (Nat.cast_nonneg _)

/-- The Jaccard ratio is at most one. -/
theorem jaccard_le_one (s t : Finset (List Nat)) : jaccard s t ≤ 1 := by
  by_cases h : (s ∪ t).card = 0
  · rw [jaccard, h]
    simp
  · rw [jaccard]
    exact (div_le_one (by exact_mod_cast Nat.pos_of_ne_zero h)).mpr
      (Nat.cast_le.mpr (Finset.card_le_card (Finset.inter_subset_union)))

/-- On a nonempty token set the Jaccard self-ratio is one. -/
theorem jaccard_self (s : Finset (List Nat)) (hs : s.Nonempty) : jaccard s s = 1 := by
  rw [jaccard, Finset.inter_self, Finset.union_self]
  exact div_self (Nat.cast_ne_zero.mpr (Finset.card_ne_zero.mpr hs))

/-- The address token set is never empty. -/
theorem addrTokens_nonempty (s : List Nat) : (addrTokens s).Nonempty := by
  rw [addrTokens]
  exact (List.toFinset_nonempty_iff _).mpr (splitOnChar_ne_nil 32 s)

/-- The address confidence always equals the token-set Jaccard ratio of
the two normalized addresses (the equality short-circuit returns the
same value the ratio would). -/
theorem calculateAddressConfidence_eq (a b : List Nat) :
    calculateAddressConfidence a b
      = jaccard (addrTokens (normalizeAddress a)) (addrTokens (normalizeAddress b)) := by
  rw [calculateAddressConfidence]
  by_cases h : normalizeAddress a = normalizeAddress b
  · simp only [if_pos h, h]
    exact (jaccard_self _ (addrTokens_nonempty _)).symm
  · simp only [if_neg h]

/-- C9 counterexample: the name similarity is not always in `[0,1]`.
Lower-casing U+0130 yields the two units `0069 0307`, so for the names
`[304]` and `[120]` the source computes `1 - 2/1 = -1`; and for two
empty names it computes `1 - 0/0`, which is NaN, not a number in
`[0,1]`. -/
theorem nameSimilarity_counterexample :
    calculateNameSimilarity [304] [120] = some (-1)
    ∧ ((-1 : ℚ) < 0)
    ∧ calculateNameSimilarity [] [] = none := by
  refine ⟨?_, by norm_num, rfl⟩
  rw [calculateNameSimilarity, if_neg (by decide)]
  have h1 : jsLowerStr [304] = [105, 775] := rfl
  have h2 : jsLowerStr [120] = [120] := rfl
  rw [h1, h2]
  have hlev : levenshteinDistance [105, 775] [120] = 2 := by
    simp [levenshteinDistance]
  rw [hlev]
  norm_num

/-- C9 amended: address and description similarities are exactly
`|intersection| / |union|` of the token sets, hence symmetric and in
`[0,1]`.  The name similarity equals `1 − editDistance / max(len1,
len2)` whenever some name is nonempty; it is NaN exactly when both names
are empty; its value never exceeds `1`; and it is nonnegative — hence in
`[0,1]` — whenever lower-casing does not lengthen either name (in
particular for all ASCII names). -/
theorem confidences_bounded_c9_amended (a b : List Nat) :
    calculateAddressConfidence a b
      = jaccard (addrTokens (normalizeAddress a)) (addrTokens (normalizeAddress b))
    ∧ calculateAddressConfidence a b = calculateAddressConfidence b a
    ∧ 0 ≤ calculateAddressConfidence a b
    ∧ calculateAddressConfidence a b ≤ 1
    ∧ calculateDescriptionSimilarity a b
      = jaccard (splitWsRuns (jsLowerStr a)).toFinset (splitWsRuns (jsLowerStr b)).toFinset
    ∧ calculateDescriptionSimilarity a b = calculateDescriptionSimilarity b a
    ∧ 0 ≤ calculateDescriptionSimilarity a b
    ∧ calculateDescriptionSimilarity a b ≤ 1
    ∧ (max a.length b.length ≠ 0 →
        calculateNameSimilarity a b
          = some (1 - (levenshteinDistance (jsLowerStr a) (jsLowerStr b) : ℚ) /
              ((max a.length b.length : Nat) : ℚ)))
    ∧ (calculateNameSimilarity a b = none ↔ a = [] ∧ b = [])
    ∧ (∀ q, calculateNameSimilarity a b = some q → q ≤ 1)
    ∧ ((jsLowerStr a).length ≤ a.length → (jsLowerStr b).length ≤ b.length →
        ∀ q, calculateNameSimilarity a b = some q → 0 ≤ q) := by
  have haddr := calculateAddressConfidence_eq a b
  refine ⟨haddr, ?_, ?_, ?_, rfl, ?_, jaccard_nonneg _ _, jaccard_le_one _ _,
    ?_, ?_, ?_, ?_⟩
  · rw [haddr, calculateAddressConfidence_eq b a, jaccard_symm]
  · rw [haddr]
    exact jaccard_nonneg _ _
  · rw [haddr]
    exact jaccard_le_one _ _
  · rw [calculateDescriptionSimilarity, calculateDescriptionSimilarity, jaccard_symm]
  · intro h
    rw [calculateNameSimilarity, if_neg h]
  · by_cases h : max a.length b.length = 0
    · have ha : a = [] := List.length_eq_zero.mp (by omega)
      have hb : b = [] := List.length_eq_zero.mp (by omega)
      rw [calculateNameSimilarity, if_pos h]
      exact ⟨fun _ => ⟨ha, hb⟩, fun _ => rfl⟩
    · rw [calculateNameSimilarity, if_neg h]
      constructor
      · intro hco
        exact absurd hco (by simp)
      · rintro ⟨rfl, rfl⟩
        simp at h
  · intro q hq
    by_cases h : max a.length b.length = 0
    · rw [calculateNameSimilarity, if_pos h] at hq
      exact absurd hq (by simp)
    · rw [calculateNameSimilarity, if_neg h, Option.some_inj] at hq
      have hge : 0 ≤ (levenshteinDistance (jsLowerStr a) (jsLowerStr b) : ℚ) /
          ((max a.length b.length : Nat) : ℚ) :=
        div_nonneg (Nat.cast_nonneg _) (Nat.cast_nonneg _)
      linarith [hq.symm.le, hq.le]
  · intro hla hlb q hq
    by_cases h : max a.length b.length = 0
    · rw [calculateNameSimilarity, if_pos h] at hq
      exact absurd hq (by simp)
    · rw [calculateNameSimilarity, if_neg h, Option.some_inj] at hq
      have hd : levenshteinDistance (jsLowerStr a) (jsLowerStr b) ≤ max a.length b.length :=
        le_trans (levenshteinDistance_le (jsLowerStr a) (jsLowerStr b))
          (max_le_max hla hlb)
      have hpos : (0 : ℚ) < ((max a.length b.length : Nat) : ℚ) := by
        exact_mod_cast Nat.pos_of_ne_zero h
      have hle : (levenshteinDistance (jsLowerStr a) (jsLowerStr b) : ℚ) /
          ((max a.length b.length : Nat) : ℚ) ≤ 1 :=
        (div_le_one hpos).mpr (Nat.cast_le.mpr hd)
      rw [← hq]
      linarith

/-- C9 amended witness: the ASCII names `a` and `xy` score exactly
`1 - 2/2 = 0`, which the amended bounds place in `[0,1]`. -/
theorem confidences_bounded_c9_amended_witness :
    calculateNameSimilarity [97] [120, 121] = some 0
    ∧ (0 : ℚ) ≤ 0
    ∧ (0 : ℚ) ≤ 1 := by
  obtain ⟨-, -, -, -, -, -, -, -, hformula, -, hupper, hlower⟩ :=
    confidences_bounded_c9_amended [97] [120, 121]
  have hval : calculateNameSimilarity [97] [120, 121] = some 0 := by
    rw [hformula (by decide)]
    have h1 : jsLowerStr [97] = [97] := rfl
    have h2 : jsLowerStr [120, 121] = [120, 121] := rfl
    rw [h1, h2]
    have hlev : levenshteinDistance [97] [120, 121] = 2 := by
      simp [levenshteinDistance]
    rw [hlev]
    norm_num
  exact ⟨hval, hlower (by decide) (by decide) 0 hval, hupper 0 hval⟩

/-- ASCII lower-casing is idempotent. -/
theorem toLowerCode_idem (c : Nat) : toLowerCode (toLowerCode c) = toLowerCode c := by
  unfold toLowerCode
  split_ifs <;> omega

/-- Whitespace characters are not word characters. -/
theorem wsCode_not_word {c : Nat} (h : isWsCode c = true) : isWordCode c = false := by
  rw [isWsCode] at h
  simp only [Bool.or_eq_true, decide_eq_true_eq] at h
  rw [isWordCode]
  simp only [Bool.or_eq_false_iff, Bool.and_eq_false_iff, decide_eq_false_iff_not]
  omega

/-- Word characters are not whitespace. -/
theorem word_not_ws {c : Nat} (h : isWordCode c = true) : isWsCode c = false := by
  rw [isWordCode] at h
  simp only [Bool.or_eq_true, Bool.and_eq_true, decide_eq_true_eq] at h
  rw [isWsCode]
  simp only [Bool.or_eq_false_iff, decide_eq_false_iff_not]
  omega

/-- Lower-casing a string of lower-case-stable characters is the
identity. -/
theorem lowerStr_id {t : List Nat} (h : ∀ c ∈ t, toLowerCode c = c) : lowerStr t = t := by
  rw [lowerStr]
  conv_rhs => rw [← List.map_id t]
  exact List.map_congr_left h

/-- Dot removal on a dot-free string is the identity. -/
theorem removeDots_id {t : List Nat} (h : ∀ c ∈ t, c ≠ 46) : removeDots t = t := by
  rw [removeDots, List.filter_eq_self]
  intro a ha
  simpa using h a ha

/-- Comma replacement on a comma-free string is the identity. -/
theorem commasToSpaces_id {t : List Nat} (h : ∀ c ∈ t, c ≠ 44) : commasToSpaces t = t := by
  rw [commasToSpaces]
  conv_rhs => rw [← List.map_id t]
  exact List.map_congr_left (fun c hc => if_neg (h c hc))

/-- Whitespace collapsing is the identity on a string whose whitespace
is single plain spaces. -/
theorem collapseWs_id :
    ∀ {t : List Nat}, (∀ c ∈ t, isWsCode c = true → c = 32) → NoAdjWs t →
      collapseWs t = t := by
  intro t
  induction t using collapseWs.induct with
  | case1 => intro _ _; rw [collapseWs]
  | case2 c cs hc ih =>
    intro hws hadj
    have hc32 : c = 32 := hws c (by simp) hc
    have hdw : List.dropWhile isWsCode cs = cs := by
      match cs with
      | [] => rfl
      | d :: ds =>
        have hrel := (List.chain'_cons'.mp hadj).1 d rfl
        have hd : isWsCode d = false := by
          by_contra hd
          exact hrel ⟨hc, by simpa using hd⟩
        simp [List.dropWhile_cons, hd]
    rw [hdw] at ih
    have htail : NoAdjWs cs := List.Chain'.tail hadj
    rw [collapseWs, if_pos hc, hdw,
      ih (fun x hx hwx => hws x (List.mem_cons_of_mem _ hx) hwx) htail, hc32]
  | case3 c cs hc ih =>
    intro hws hadj
    have htail : NoAdjWs cs := List.Chain'.tail hadj
    rw [collapseWs, if_neg hc,
      ih (fun x hx hwx => hws x (List.mem_cons_of_mem _ hx) hwx) htail]

/-- Word replacement is the identity when every word run is fixed by
`f`. -/
theorem replaceWords_id {f : List Nat → List Nat} :
    ∀ {t : List Nat}, (∀ w ∈ wordRuns t, f w = w) → replaceWords f t = t := by
  intro t
  induction t using wordRuns.induct with
  | case1 => intro _; rw [replaceWords]
  | case2 c cs hc ih =>
    intro hr
    have hruns : wordRuns (c :: cs) = (c :: cs.takeWhile isWordCode) ::
        wordRuns (cs.dropWhile isWordCode) := by
      rw [wordRuns, if_pos hc]
    have hrun : f (c :: cs.takeWhile isWordCode) = c :: cs.takeWhile isWordCode :=
      hr _ (by rw [hruns]; exact List.mem_cons_self _ _)
    rw [replaceWords, if_pos hc, hrun,
      ih (fun w hw => hr w (by rw [hruns]; exact List.mem_cons_of_mem _ hw))]
    rw [List.cons_append, List.takeWhile_append_dropWhile]
  | case3 c cs hc ih =>
    intro hr
    have hruns : wordRuns (c :: cs) = wordRuns cs := by
      rw [wordRuns, if_neg hc]
    rw [replaceWords, if_neg hc, ih (fun w hw => hr w (by rw [hruns]; exact hw))]

/-- Trimming is the identity when neither end is whitespace. -/
theorem trimStr_id {t : List Nat}
    (hhead : ∀ x, t.head? = some x → isWsCode x = false)
    (hlast : ∀ x, t.getLast? = some x → isWsCode x = false) :
    trimStr t = t := by
  rw [trimStr]
  have hdw : List.dropWhile isWsCode t = t := by
    match t with
    | [] => rfl
    | c :: cs => simp [List.dropWhile_cons, hhead c rfl]
  rw [hdw, List.rdropWhile_eq_self_iff]
  intro hl
  rw [hlast (t.getLast hl) (List.getLast?_eq_getLast t hl)]
  simp

/-- The head of a `dropWhile` result fails the predicate. -/
theorem dropWhile_head_false (p : Nat → Bool) :
    ∀ (l : List Nat) (x : Nat), (List.dropWhile p l).head? = some x → p x = false := by
  intro l
  induction l with
  | nil => intro x hx; simp at hx
  | cons c cs ih =>
    intro x hx
    rw [List.dropWhile_cons] at hx
    by_cases hc : p c
    · rw [if_pos hc] at hx
      exact ih x hx
    · rw [if_neg hc] at hx
      rw [List.head?_cons, Option.some_inj] at hx
      rw [← hx]
      simpa using hc

/-- `takeWhile` ignores an appended part that fails the predicate. -/
theorem takeWhile_append_nonsat (p : Nat → Bool) (r : List Nat)
    (hr : ∀ c ∈ r, p c = false) :
    ∀ l : List Nat, (l ++ r).takeWhile p = l.takeWhile p := by
  intro l
  induction l with
  | nil =>
    simp only [List.nil_append, List.takeWhile_nil]
    match r with
    | [] => rfl
    | c :: cs => simp [List.takeWhile_cons, hr c (by simp)]
  | cons a l ih =>
    rw [List.cons_append, List.takeWhile_cons, List.takeWhile_cons]
    by_cases ha : p a
    · rw [if_pos ha, if_pos ha, ih]
    · rw [if_neg ha, if_neg ha]

/-- `dropWhile` keeps an appended part that fails the predicate. -/
theorem dropWhile_append_nonsat (p : Nat → Bool) (r : List Nat)
    (hr : ∀ c ∈ r, p c = false) :
    ∀ l : List Nat, (l ++ r).dropWhile p = l.dropWhile p ++ r := by
  intro l
  induction l with
  | nil =>
    simp only [List.nil_append, List.dropWhile_nil]
    match r with
    | [] => rfl
    | c :: cs => simp [List.dropWhile_cons, hr c (by simp)]
  | cons a l ih =>
    rw [List.cons_append, List.dropWhile_cons, List.dropWhile_cons]
    by_cases ha : p a
    · rw [if_pos ha, if_pos ha, ih]
    · rw [if_neg ha, if_neg ha, List.cons_append]

/-- `takeWhile` swallows a fully satisfying part. -/
theorem takeWhile_append_all (p : Nat → Bool) {l : List Nat}
    (hl : ∀ c ∈ l, p c = true) (r : List Nat) :
    (l ++ r).takeWhile p = l ++ r.takeWhile p := by
  induction l with
  | nil => simp
  | cons a as ih =>
    rw [List.cons_append, List.takeWhile_cons, if_pos (hl a (by simp)),
      ih (fun c hc => hl c (List.mem_cons_of_mem _ hc)), List.cons_append]

/-- `dropWhile` drops a fully satisfying part. -/
theorem dropWhile_append_all (p : Nat → Bool) {l : List Nat}
    (hl : ∀ c ∈ l, p c = true) (r : List Nat) :
    (l ++ r).dropWhile p = r.dropWhile p := by
  induction l with
  | nil => simp
  | cons a as ih =>
    rw [List.cons_append, List.dropWhile_cons, if_pos (hl a (by simp)),
      ih (fun c hc => hl c (List.mem_cons_of_mem _ hc))]

/-- The characters produced by lower-casing, dot removal and comma
replacement: lower-case-stable, no dot, no comma. -/
theorem chars_preNormalize (s : List Nat) :
    ∀ c ∈ commasToSpaces (removeDots (lowerStr s)),
      toLowerCode c = c ∧ c ≠ 46 ∧ c ≠ 44 := by
  intro c hc
  rw [commasToSpaces] at hc
  obtain ⟨x, hx, hcx⟩ := List.mem_map.mp hc
  rw [removeDots] at hx
  have hx46 : x ≠ 46 := by simpa using List.of_mem_filter hx
  have hxl : x ∈ lowerStr s := List.mem_of_mem_filter hx
  rw [lowerStr] at hxl
  obtain ⟨y, _, hyx⟩ := List.mem_map.mp hxl
  have hfix : toLowerCode x = x := by
    rw [← hyx]
    exact toLowerCode_idem y
  by_cases h44 : x = 44
  · rw [← hcx, if_pos h44]
    exact ⟨by decide, by decide, by decide⟩
  · rw [← hcx, if_neg h44]
    exact ⟨hfix, hx46, h44⟩

/-- Every whitespace character in a collapsed string is a plain space. -/
theorem collapseWs_ws32 :
    ∀ (u : List Nat) (c : Nat), c ∈ collapseWs u → isWsCode c = true → c = 32 := by
  intro u
  induction u using collapseWs.induct with
  | case1 =>
    intro c hc
    rw [collapseWs] at hc
    simp at hc
  | case2 d ds hd ih =>
    intro c hc hw
    rw [collapseWs, if_pos hd] at hc
    rcases List.mem_cons.mp hc with rfl | hc'
    · rfl
    · exact ih c hc' hw
  | case3 d ds hd ih =>
    intro c hc hw
    rw [collapseWs, if_neg hd] at hc
    rcases List.mem_cons.mp hc with rfl | hc'
    · exact absurd hw hd
    · exact ih c hc' hw

/-- Characters of a collapsed string come from the input or are spaces. -/
theorem collapseWs_mem :
    ∀ (u : List Nat) (c : Nat), c ∈ collapseWs u → c ∈ u ∨ c = 32 := by
  intro u
  induction u using collapseWs.induct with
  | case1 =>
    intro c hc
    rw [collapseWs] at hc
    simp at hc
  | case2 d ds hd ih =>
    intro c hc
    rw [collapseWs, if_pos hd] at hc
    rcases List.mem_cons.mp hc with rfl | hc'
    · right; rfl
    · rcases ih c hc' with h | h
      · exact Or.inl (List.mem_cons_of_mem _ ((List.dropWhile_sublist _).subset h))
      · exact Or.inr h
  | case3 d ds hd ih =>
    intro c hc
    rw [collapseWs, if_neg hd] at hc
    rcases List.mem_cons.mp hc with rfl | hc'
    · exact Or.inl (List.mem_cons_self _ _)
    · rcases ih c hc' with h | h
      · exact Or.inl (List.mem_cons_of_mem _ h)
      · exact Or.inr h

/-- Collapsing preserves a non-whitespace head. -/
theorem collapseWs_head_not_ws (v : List Nat)
    (hv : ∀ x, v.head? = some x → isWsCode x = false) :
    ∀ x, (collapseWs v).head? = some x → isWsCode x = false := by
  intro x hx
  cases v with
  | nil =>
    rw [collapseWs] at hx
    simp at hx
  | cons c cs =>
    have hc := hv c rfl
    rw [collapseWs, if_neg (by simp [hc])] at hx
    rw [List.head?_cons, Option.some_inj] at hx
    rw [← hx]
    exact hc

/-- A collapsed string has no two adjacent whitespace characters. -/
theorem collapseWs_noAdj : ∀ u : List Nat, NoAdjWs (collapseWs u) := by
  intro u
  induction u using collapseWs.induct with
  | case1 =>
    rw [collapseWs]
    exact List.chain'_nil
  | case2 d ds hd ih =>
    rw [collapseWs, if_pos hd]
    refine List.chain'_cons'.mpr ⟨?_, ih⟩
    intro y hy hcon
    have hdh : ∀ x, (List.dropWhile isWsCode ds).head? = some x → isWsCode x = false :=
      fun x hx => dropWhile_head_false isWsCode ds x hx
    have := collapseWs_head_not_ws _ hdh y hy
    rw [this] at hcon
    exact absurd hcon.2 (by simp)
  | case3 d ds hd ih =>
    rw [collapseWs, if_neg hd]
    refine List.chain'_cons'.mpr ⟨?_, ih⟩
    intro y _ hcon
    exact hd hcon.1

/-- Characters of a word-replaced string come from the input or from the
replacement word. -/
theorem replaceWords_mem {f : List Nat → List Nat} {dst : List Nat}
    (hfm : ∀ w, f w = w ∨ f w = dst) :
    ∀ (u : List Nat) (c : Nat), c ∈ replaceWords f u → c ∈ u ∨ c ∈ dst := by
  intro u
  induction u using wordRuns.induct with
  | case1 =>
    intro c hc
    rw [replaceWords] at hc
    simp at hc
  | case2 d ds hd ih =>
    intro c hc
    rw [replaceWords, if_pos hd] at hc
    rcases List.mem_append.mp hc with h1 | h2
    · rcases hfm (d :: ds.takeWhile isWordCode) with he | he
      · rw [he] at h1
        left
        rcases List.mem_cons.mp h1 with rfl | h1'
        · exact List.mem_cons_self _ _
        · exact List.mem_cons_of_mem _ ((List.takeWhile_sublist _).subset h1')
      · rw [he] at h1
        exact Or.inr h1
    · rcases ih c h2 with h | h
      · exact Or.inl (List.mem_cons_of_mem _ ((List.dropWhile_sublist _).subset h))
      · exact Or.inr h
  | case3 d ds hd ih =>
    intro c hc
    rw [replaceWords, if_neg hd] at hc
    rcases List.mem_cons.mp hc with rfl | hc'
    · exact Or.inl (List.mem_cons_self _ _)
    · rcases ih c hc' with h | h
      · exact Or.inl (List.mem_cons_of_mem _ h)
      · exact Or.inr h

/-- `replWord` maps nonempty all-word-character words to nonempty
all-word-character words whenever the replacement is such a word. -/
theorem replWord_wordlike {src dst : List Nat} (hd1 : dst ≠ [])
    (hd2 : ∀ c ∈ dst, isWordCode c = true) :
    ∀ w, w ≠ [] → (∀ c ∈ w, isWordCode c = true) →
      replWord src dst w ≠ [] ∧ ∀ c ∈ replWord src dst w, isWordCode c = true := by
  intro w hw hwc
  rw [replWord]
  by_cases h : w = src
  · rw [if_pos h]
    exact ⟨hd1, hd2⟩
  · rw [if_neg h]
    exact ⟨hw, hwc⟩

/-- Word replacement preserves a non-word head. -/
theorem replaceWords_head_nonword {f : List Nat → List Nat} (v : List Nat)
    (hv : ∀ x, v.head? = some x → isWordCode x = false) :
    ∀ x, (replaceWords f v).head? = some x → isWordCode x = false := by
  intro x hx
  cases v with
  | nil =>
    rw [replaceWords] at hx
    simp at hx
  | cons d ds =>
    have hd := hv d rfl
    rw [replaceWords, if_neg (by simp [hd])] at hx
    rw [List.head?_cons, Option.some_inj] at hx
    rw [← hx]
    exact hd

/-- The head of a word-replaced string is a word character or the
original head. -/
theorem replaceWords_head {f : List Nat → List Nat}
    (hfw : ∀ w, w ≠ [] → (∀ c ∈ w, isWordCode c = true) →
      f w ≠ [] ∧ ∀ c ∈ f w, isWordCode c = true) (v : List Nat) :
    ∀ x, (replaceWords f v).head? = some x →
      isWordCode x = true ∨ v.head? = some x := by
  intro x hx
  cases v with
  | nil =>
    rw [replaceWords] at hx
    simp at hx
  | cons d ds =>
    by_cases hd : isWordCode d
    · rw [replaceWords, if_pos hd] at hx
      have hrw : ∀ c ∈ d :: ds.takeWhile isWordCode, isWordCode c = true := by
        intro c hcm
        rcases List.mem_cons.mp hcm with rfl | hcm'
        · exact hd
        · exact List.mem_takeWhile_imp hcm'
      have hprops := hfw (d :: ds.takeWhile isWordCode) (by simp) hrw
      rw [List.head?_append_of_ne_nil _ hprops.1] at hx
      exact Or.inl (hprops.2 x (List.mem_of_mem_head? hx))
    · rw [replaceWords, if_neg hd] at hx
      rw [List.head?_cons] at hx
      exact Or.inr (by rw [List.head?_cons]; exact hx)

/-- A string of word characters has no adjacent whitespace. -/
theorem noAdjWs_of_all_word {l : List Nat} (h : ∀ c ∈ l, isWordCode c = true) :
    NoAdjWs l := by
  induction l with
  | nil => exact List.chain'_nil
  | cons c cs ih =>
    refine List.chain'_cons'.mpr ⟨?_, ih (fun x hx => h x (List.mem_cons_of_mem _ hx))⟩
    intro y _ hcon
    have := word_not_ws (h c (List.mem_cons_self _ _))
    rw [this] at hcon
    exact absurd hcon.1 (by simp)

/-- Word replacement preserves the no-adjacent-whitespace invariant. -/
theorem replaceWords_noAdj {f : List Nat → List Nat}
    (hfw : ∀ w, w ≠ [] → (∀ c ∈ w, isWordCode c = true) →
      f w ≠ [] ∧ ∀ c ∈ f w, isWordCode c = true) :
    ∀ u : List Nat, NoAdjWs u → NoAdjWs (replaceWords f u) := by
  intro u
  induction u using wordRuns.induct with
  | case1 =>
    intro _
    rw [replaceWords]
    exact List.chain'_nil
  | case2 d ds hd ih =>
    intro hadj
    rw [replaceWords, if_pos hd]
    have hrw : ∀ c ∈ d :: ds.takeWhile isWordCode, isWordCode c = true := by
      intro c hcm
      rcases List.mem_cons.mp hcm with rfl | hcm'
      · exact hd
      · exact List.mem_takeWhile_imp hcm'
    have hprops := hfw (d :: ds.takeWhile isWordCode) (by simp) hrw
    refine List.chain'_append.mpr ⟨noAdjWs_of_all_word hprops.2, ?_, ?_⟩
    · exact ih (List.Chain'.suffix hadj
        ((List.dropWhile_suffix _).trans (List.suffix_cons d ds)))
    · intro x hxl y _ hcon
      have hxm : x ∈ f (d :: ds.takeWhile isWordCode) := List.mem_of_mem_getLast? hxl
      have := word_not_ws (hprops.2 x hxm)
      rw [this] at hcon
      exact absurd hcon.1 (by simp)
  | case3 d ds hd ih =>
    intro hadj
    rw [replaceWords, if_neg hd]
    refine List.chain'_cons'.mpr ⟨?_, ih (List.Chain'.tail hadj)⟩
    intro y hy hcon
    rcases replaceWords_head hfw ds y hy with hw | hh
    · rw [word_not_ws hw] at hcon
      exact absurd hcon.2 (by simp)
    · exact (List.chain'_cons'.mp hadj).1 y hh hcon

/-- A string without word characters has no word runs. -/
theorem wordRuns_eq_nil_of_nonword {r : List Nat}
    (hr : ∀ c ∈ r, isWordCode c = false) : wordRuns r = [] := by
  induction r with
  | nil => rw [wordRuns]
  | cons c cs ih =>
    rw [wordRuns, if_neg (by simp [hr c (List.mem_cons_self _ _)])]
    exact ih (fun x hx => hr x (List.mem_cons_of_mem _ hx))

/-- Appending a word-character-free tail does not change the word runs. -/
theorem wordRuns_append_nonword :
    ∀ (l : List Nat) {r : List Nat}, (∀ c ∈ r, isWordCode c = false) →
      wordRuns (l ++ r) = wordRuns l := by
  intro l
  induction l using wordRuns.induct with
  | case1 =>
    intro r hr
    rw [List.nil_append, wordRuns_eq_nil_of_nonword hr, wordRuns]
  | case2 d ds hd ih =>
    intro r hr
    rw [List.cons_append, wordRuns, if_pos hd,
      takeWhile_append_nonsat _ r hr ds, dropWhile_append_nonsat _ r hr ds,
      ih hr, wordRuns, if_pos hd]
  | case3 d ds hd ih =>
    intro r hr
    rw [List.cons_append, wordRuns, if_neg hd, ih hr, wordRuns, if_neg hd]

/-- Word runs of a word prepended to a non-word-headed rest. -/
theorem wordRuns_word_append {w r : List Nat} (hw1 : w ≠ [])
    (hw2 : ∀ c ∈ w, isWordCode c = true)
    (hr : ∀ x, r.head? = some x → isWordCode x = false) :
    wordRuns (w ++ r) = w :: wordRuns r := by
  match w with
  | c :: w' =>
    have hc : isWordCode c = true := hw2 c (by simp)
    have hw' : ∀ x ∈ w', isWordCode x = true :=
      fun x hx => hw2 x (List.mem_cons_of_mem _ hx)
    have htkr : List.takeWhile isWordCode r = [] := by
      match r with
      | [] => rfl
      | d :: ds => simp [List.takeWhile_cons, hr d rfl]
    have hdpr : List.dropWhile isWordCode r = r := by
      match r with
      | [] => rfl
      | d :: ds => simp [List.dropWhile_cons, hr d rfl]
    rw [List.cons_append, wordRuns, if_pos hc,
      takeWhile_append_all isWordCode hw' r, htkr, List.append_nil,
      dropWhile_append_all isWordCode hw' r, hdpr]

/-- Word replacement acts on the list of word runs as `map f`. -/
theorem wordRuns_replaceWords {f : List Nat → List Nat}
    (hfw : ∀ w, w ≠ [] → (∀ c ∈ w, isWordCode c = true) →
      f w ≠ [] ∧ ∀ c ∈ f w, isWordCode c = true) :
    ∀ u : List Nat, wordRuns (replaceWords f u) = (wordRuns u).map f := by
  intro u
  induction u using wordRuns.induct with
  | case1 =>
    rw [replaceWords, wordRuns]
    simp [wordRuns]
  | case2 d ds hd ih =>
    rw [replaceWords, if_pos hd]
    have hrw : ∀ c ∈ d :: ds.takeWhile isWordCode, isWordCode c = true := by
      intro c hcm
      rcases List.mem_cons.mp hcm with rfl | hcm'
      · exact hd
      · exact List.mem_takeWhile_imp hcm'
    have hprops := hfw (d :: ds.takeWhile isWordCode) (by simp) hrw
    have hrech : ∀ x, (replaceWords f (ds.dropWhile isWordCode)).head? = some x →
        isWordCode x = false :=
      replaceWords_head_nonword _ (fun x hx => dropWhile_head_false _ _ x hx)
    rw [wordRuns_word_append hprops.1 hprops.2 hrech, ih, wordRuns, if_pos hd,
      List.map_cons]
  | case3 d ds hd ih =>
    rw [replaceWords, if_neg hd, wordRuns, if_neg hd, ih, wordRuns, if_neg hd]

/-- Dropping leading whitespace does not change the word runs. -/
theorem wordRuns_dropWhile_ws (v : List Nat) :
    wordRuns (List.dropWhile isWsCode v) = wordRuns v := by
  induction v with
  | nil => rfl
  | cons c cs ih =>
    by_cases hc : isWsCode c
    · rw [List.dropWhile_cons, if_pos hc, ih, wordRuns,
        if_neg (by simp [wsCode_not_word hc])]
    · rw [List.dropWhile_cons, if_neg hc]

/-- A list splits into its `rdropWhile` part and its `rtakeWhile` part. -/
theorem rdropWhile_append_rtakeWhile (p : Nat → Bool) (l : List Nat) :
    List.rdropWhile p l ++ List.rtakeWhile p l = l := by
  rw [List.rdropWhile, List.rtakeWhile, ← List.reverse_append,
    List.takeWhile_append_dropWhile, List.reverse_reverse]

/-- Trimming does not change the word runs. -/
theorem wordRuns_trimStr (v : List Nat) : wordRuns (trimStr v) = wordRuns v := by
  rw [trimStr]
  have h1 : wordRuns (List.rdropWhile isWsCode (List.dropWhile isWsCode v))
      = wordRuns (List.dropWhile isWsCode v) := by
    conv_rhs => rw [← rdropWhile_append_rtakeWhile isWsCode (List.dropWhile isWsCode v)]
    rw [wordRuns_append_nonword]
    intro c hc
    exact wsCode_not_word (List.mem_rtakeWhile_imp hc)
  rw [h1, wordRuns_dropWhile_ws]

/-- `replWord` either fixes a word or yields the replacement. -/
theorem replWord_cases (src dst w : List Nat) :
    replWord src dst w = w ∨ replWord src dst w = dst := by
  rw [replWord]
  by_cases h : w = src
  · rw [if_pos h]
    exact Or.inr rfl
  · rw [if_neg h]
    exact Or.inl rfl

/-- Lower-case ASCII letters are good normal-form characters. -/
theorem goodChar_lowercase {c : Nat} (h1 : 97 ≤ c) (h2 : c ≤ 122) : GoodChar c := by
  refine ⟨?_, ?_, ?_, ?_⟩
  · rw [toLowerCode, if_neg]
    omega
  · omega
  · omega
  · intro hw
    rw [isWsCode] at hw
    simp only [Bool.or_eq_true, decide_eq_true_eq] at hw
    omega

/-- The composite abbreviation expansion never yields an abbreviation. -/
theorem expandAll_not_abbrev (w : List Nat) :
    expandAll w ∉ ([wApt, wSt, wAve, wDr, wRd] : List (List Nat)) := by
  by_cases h1 : w = wApt
  · subst h1; decide
  by_cases h2 : w = wSt
  · subst h2; decide
  by_cases h3 : w = wAve
  · subst h3; decide
  by_cases h4 : w = wDr
  · subst h4; decide
  by_cases h5 : w = wRd
  · subst h5; decide
  have he : expandAll w = w := by
    simp [expandAll, replWord, h1, h2, h3, h4, h5]
  rw [he]
  simp only [List.mem_cons, List.not_mem_nil, or_false]
  tauto

/-- The output of `normalizeAddress` is in normal form. -/
theorem normalForm_normalizeAddress (s : List Nat) :
    NormalForm (normalizeAddress s) := by
  have hWapt : wApartment ≠ [] ∧ (∀ c ∈ wApartment, isWordCode c = true)
      ∧ ∀ c ∈ wApartment, GoodChar c :=
    ⟨by decide, by decide, by
      intro c hc; fin_cases hc <;> exact goodChar_lowercase (by decide) (by decide)⟩
  have hWst : wStreet ≠ [] ∧ (∀ c ∈ wStreet, isWordCode c = true)
      ∧ ∀ c ∈ wStreet, GoodChar c :=
    ⟨by decide, by decide, by
      intro c hc; fin_cases hc <;> exact goodChar_lowercase (by decide) (by decide)⟩
  have hWave : wAvenue ≠ [] ∧ (∀ c ∈ wAvenue, isWordCode c = true)
      ∧ ∀ c ∈ wAvenue, GoodChar c :=
    ⟨by decide, by decide, by
      intro c hc; fin_cases hc <;> exact goodChar_lowercase (by decide) (by decide)⟩
  have hWdr : wDrive ≠ [] ∧ (∀ c ∈ wDrive, isWordCode c = true)
      ∧ ∀ c ∈ wDrive, GoodChar c :=
    ⟨by decide, by decide, by
      intro c hc; fin_cases hc <;> exact goodChar_lowercase (by decide) (by decide)⟩
  have hWrd : wRoad ≠ [] ∧ (∀ c ∈ wRoad, isWordCode c = true)
      ∧ ∀ c ∈ wRoad, GoodChar c :=
    ⟨by decide, by decide, by
      intro c hc; fin_cases hc <;> exact goodChar_lowercase (by decide) (by decide)⟩
  have step : ∀ src dst : List Nat, dst ≠ [] →
      (∀ c ∈ dst, isWordCode c = true) → (∀ c ∈ dst, GoodChar c) →
      ∀ u : List Nat, (∀ c ∈ u, GoodChar c) → NoAdjWs u →
        (∀ c ∈ replaceWords (replWord src dst) u, GoodChar c)
        ∧ NoAdjWs (replaceWords (replWord src dst) u) := by
    intro src dst hd1 hd2 hd3 u hg hadj
    constructor
    · intro c hc
      rcases replaceWords_mem (replWord_cases src dst) u c hc with h | h
      · exact hg c h
      · exact hd3 c h
    · exact replaceWords_noAdj (replWord_wordlike hd1 hd2) u hadj
  have hg3 : ∀ c ∈ collapseWs (commasToSpaces (removeDots (lowerStr s))), GoodChar c := by
    intro c hc
    have hws32 := collapseWs_ws32 _ c hc
    rcases collapseWs_mem _ c hc with h | h
    · have h2 := chars_preNormalize s c h
      exact ⟨h2.1, h2.2.1, h2.2.2, hws32⟩
    · rw [h]
      exact ⟨by decide, by decide, by decide, fun _ => rfl⟩
  have hadj3 : NoAdjWs (collapseWs (commasToSpaces (removeDots (lowerStr s)))) :=
    collapseWs_noAdj _
  have h4 := step wApt wApartment hWapt.1 hWapt.2.1 hWapt.2.2 _ hg3 hadj3
  have h5 := step wSt wStreet hWst.1 hWst.2.1 hWst.2.2 _ h4.1 h4.2
  have h6 := step wAve wAvenue hWave.1 hWave.2.1 hWave.2.2 _ h5.1 h5.2
  have h7 := step wDr wDrive hWdr.1 hWdr.2.1 hWdr.2.2 _ h6.1 h6.2
  have h8 := step wRd wRoad hWrd.1 hWrd.2.1 hWrd.2.2 _ h7.1 h7.2
  rw [normalizeAddress]
  refine ⟨?_, ?_, ?_, ?_, ?_⟩
  · intro c hc
    apply h8.1 c
    rw [trimStr] at hc
    exact (List.dropWhile_sublist _).subset ((List.rdropWhile_prefix _ _).subset hc)
  · rw [trimStr]
    exact List.Chain'.prefix
      (List.Chain'.suffix h8.2 (List.dropWhile_suffix isWsCode))
      (List.rdropWhile_prefix _ _)
  · intro x hx
    rw [trimStr] at hx
    have hne : List.rdropWhile isWsCode
        (List.dropWhile isWsCode (replaceWords (replWord wRd wRoad)
          (replaceWords (replWord wDr wDrive)
            (replaceWords (replWord wAve wAvenue)
              (replaceWords (replWord wSt wStreet)
                (replaceWords (replWord wApt wApartment)
                  (collapseWs (commasToSpaces (removeDots (lowerStr s)))))))))) ≠ [] := by
      intro h0
      rw [h0] at hx
      simp at hx
    have hdec := rdropWhile_append_rtakeWhile isWsCode
      (List.dropWhile isWsCode (replaceWords (replWord wRd wRoad)
        (replaceWords (replWord wDr wDrive)
          (replaceWords (replWord wAve wAvenue)
            (replaceWords (replWord wSt wStreet)
              (replaceWords (replWord wApt wApartment)
                (collapseWs (commasToSpaces (removeDots (lowerStr s))))))))))
    have hx' : (List.dropWhile isWsCode (replaceWords (replWord wRd wRoad)
        (replaceWords (replWord wDr wDrive)
          (replaceWords (replWord wAve wAvenue)
            (replaceWords (replWord wSt wStreet)
              (replaceWords (replWord wApt wApartment)
                (collapseWs (commasToSpaces (removeDots (lowerStr s)))))))))).head?
        = some x := by
      rw [← hdec, List.head?_append_of_ne_nil _ hne]
      exact hx
    exact dropWhile_head_false _ _ x hx'
  · intro x hx
    rw [trimStr] at hx
    have hne : List.rdropWhile isWsCode
        (List.dropWhile isWsCode (replaceWords (replWord wRd wRoad)
          (replaceWords (replWord wDr wDrive)
            (replaceWords (replWord wAve wAvenue)
              (replaceWords (replWord wSt wStreet)
                (replaceWords (replWord wApt wApartment)
                  (collapseWs (commasToSpaces (removeDots (lowerStr s)))))))))) ≠ [] := by
      intro h0
      rw [h0] at hx
      simp at hx
    rw [List.getLast?_eq_getLast _ hne, Option.some_inj] at hx
    rw [← hx]
    simpa using List.rdropWhile_last_not _ _ hne
  · intro w hw
    rw [wordRuns_trimStr,
      wordRuns_replaceWords (replWord_wordlike hWrd.1 hWrd.2.1),
      wordRuns_replaceWords (replWord_wordlike hWdr.1 hWdr.2.1),
      wordRuns_replaceWords (replWord_wordlike hWave.1 hWave.2.1),
      wordRuns_replaceWords (replWord_wordlike hWst.1 hWst.2.1),
      wordRuns_replaceWords (replWord_wordlike hWapt.1 hWapt.2.1)] at hw
    simp only [List.map_map] at hw
    obtain ⟨w0, _, rfl⟩ := List.mem_map.mp hw
    exact expandAll_not_abbrev w0

/-- `normalizeAddress` is the identity on normal-form strings. -/
theorem normalizeAddress_of_normalForm {t : List Nat} (h : NormalForm t) :
    normalizeAddress t = t := by
  have hrw : ∀ src dst : List Nat, src ∈ ([wApt, wSt, wAve, wDr, wRd] : List (List Nat)) →
      replaceWords (replWord src dst) t = t := by
    intro src dst hsrc
    apply replaceWords_id
    intro w hw
    rw [replWord, if_neg]
    intro he
    exact h.runsOk w hw (he ▸ hsrc)
  rw [normalizeAddress,
    lowerStr_id (fun c hc => (h.good c hc).1),
    removeDots_id (fun c hc => (h.good c hc).2.1),
    commasToSpaces_id (fun c hc => (h.good c hc).2.2.1),
    collapseWs_id (fun c hc => (h.good c hc).2.2.2) h.noAdj,
    hrw wApt wApartment (by simp), hrw wSt wStreet (by simp),
    hrw wAve wAvenue (by simp), hrw wDr wDrive (by simp),
    hrw wRd wRoad (by simp),
    trimStr_id h.headOk h.lastOk]

/-- C10: address normalization is idempotent; in particular the
re-normalization inside `calculateAddressConfidence` changes nothing
(the strategy's pre-normalized argument scores as the raw one would),
and two addresses that are equal after normalization always score
confidence 1. -/
theorem normalizeAddress_idem_c10 (a b : List Nat) :
    normalizeAddress (normalizeAddress a) = normalizeAddress a
    ∧ calculateAddressConfidence (normalizeAddress a) b = calculateAddressConfidence a b
    ∧ (normalizeAddress a = normalizeAddress b → calculateAddressConfidence a b = 1) := by
  have hid := normalizeAddress_of_normalForm (normalForm_normalizeAddress a)
  refine ⟨hid, ?_, ?_⟩
  · rw [calculateAddressConfidence_eq, calculateAddressConfidence_eq, hid]
  · intro h
    rw [calculateAddressConfidence_eq, h]
    exact jaccard_self _ (addrTokens_nonempty _)

/-- C10 witness: `st` and `street` normalize identically, hence score
confidence 1. -/
theorem normalizeAddress_idem_c10_witness :
    calculateAddressConfidence wSt wStreet = 1 :=
  (normalizeAddress_idem_c10 wSt wStreet).2.2 (by
    simp [normalizeAddress, trimStr, replaceWords, collapseWs, commasToSpaces,
      removeDots, lowerStr, toLowerCode, isWsCode, isWordCode, replWord, wApt,
      wApartment, wSt, wStreet, wAve, wAvenue, wDr, wDrive, wRd, wRoad,
      List.rdropWhile])

end PMIP
